import Mathlib

/- Shallow embedding of the retrieval pipeline implemented in
`fastapi/text_processor.py`: text chunking, vector-id construction,
JSON (de)serialization of chunk metadata, batched upsert with the
buffer handling of `process_nodes_and_store`, similarity-search result
formatting (`search_similar`), and the `search_and_answer` path.
Remote services (embedding endpoint, vector store, completion
endpoint) are modelled as oracles passed in as parameters. -/

/-- The double-quote character. -/
def qmark : Char := Char.ofNat 34

/-- The backslash character. -/
def bslash : Char := Char.ofNat 92

/-- Left curly brace. -/
def lcur : Char := Char.ofNat 123

/-- Right curly brace. -/
def rcur : Char := Char.ofNat 125

/-- Left square bracket. -/
def lbrack : Char := Char.ofNat 91

/-- Right square bracket. -/
def rbrack : Char := Char.ofNat 93

/-- Decimal digits of a natural number, most significant digit first,
as produced by Python `str` on a nonnegative `int` (fuelled helper;
the fuel is always taken large enough). -/
def py_nat_aux : Nat → Nat → List Char
  | 0, _ => []
  | f + 1, n =>
    if n < 10 then [Nat.digitChar n]
    else py_nat_aux f (n / 10) ++ [Nat.digitChar (n % 10)]

/-- Python `str` of a nonnegative integer, as a character list. -/
def py_nat (n : Nat) : List Char := py_nat_aux (n + 1) n

theorem py_nat_aux_congr (n : Nat) : ∀ f1 f2, n < f1 → n < f2 →
    py_nat_aux f1 n = py_nat_aux f2 n := by
  induction n using Nat.strong_induction_on with
  | _ n ih =>
    intro f1 f2 h1 h2
    cases f1 with
    | zero => omega
    | succ g1 =>
      cases f2 with
      | zero => omega
      | succ g2 =>
        simp only [py_nat_aux]
        by_cases h : n < 10
        · simp [h]
        · simp only [if_neg h]
          have hlt : n / 10 < n := Nat.div_lt_self (by omega) (by omega)
          rw [ih (n / 10) hlt g1 g2 (by omega) (by omega)]

theorem py_nat_unfold (n : Nat) : py_nat n =
    if n < 10 then [Nat.digitChar n]
    else py_nat (n / 10) ++ [Nat.digitChar (n % 10)] := by
  show py_nat_aux (n + 1) n = _
  by_cases h : n < 10
  · simp [py_nat_aux, h]
  · simp only [py_nat_aux, if_neg h]
    have hlt : n / 10 < n := Nat.div_lt_self (by omega) (by omega)
    rw [py_nat, py_nat_aux_congr (n / 10) n (n / 10 + 1) (by omega) (by omega)]

/-- Numeric value of a decimal digit string (inverse of `py_nat`). -/
def str_val (l : List Char) : Nat := l.foldl (fun a c => a * 10 + (c.toNat - 48)) 0

theorem str_val_append_digit (l : List Char) (c : Char) :
    str_val (l ++ [c]) = str_val l * 10 + (c.toNat - 48) := by
  simp [str_val, List.foldl_append]

theorem digitChar_val (d : Nat) (h : d < 10) : (Nat.digitChar d).toNat - 48 = d := by
  interval_cases d <;> decide

theorem str_val_py_nat (n : Nat) : str_val (py_nat n) = n := by
  induction n using Nat.strong_induction_on with
  | _ n ih =>
    rw [py_nat_unfold]
    by_cases h : n < 10
    · simp [h, str_val, digitChar_val n h]
    · simp only [if_neg h]
      have hlt : n / 10 < n := Nat.div_lt_self (by omega) (by omega)
      rw [str_val_append_digit, ih (n / 10) hlt, digitChar_val (n % 10) (by omega)]
      omega

theorem py_nat_inj {m n : Nat} (h : py_nat m = py_nat n) : m = n := by
  have := str_val_py_nat m
  rw [h, str_val_py_nat] at this
  omega

theorem digitChar_isDigit (d : Nat) (h : d < 10) : (Nat.digitChar d).isDigit = true := by
  interval_cases d <;> decide

theorem py_nat_digits (n : Nat) : ∀ c ∈ py_nat n, c.isDigit = true := by
  induction n using Nat.strong_induction_on with
  | _ n ih =>
    rw [py_nat_unfold]
    by_cases h : n < 10
    · simp only [if_pos h, List.mem_singleton]
      intro c hc; subst hc; exact digitChar_isDigit n h
    · simp only [if_neg h]
      intro c hc
      rcases List.mem_append.mp hc with hc | hc
      · exact ih (n / 10) (Nat.div_lt_self (by omega) (by omega)) c hc
      · rcases List.mem_singleton.mp hc with rfl
        exact digitChar_isDigit (n % 10) (by omega)

theorem py_nat_ne_nil (n : Nat) : py_nat n ≠ [] := by
  rw [py_nat_unfold]
  by_cases h : n < 10 <;> simp [h]

theorem mem_of_getLast_opt {l : List Char} {a : Char} (h : l.getLast? = some a) : a ∈ l := by
  cases l with
  | nil => simp at h
  | cons x xs =>
    rw [List.getLast?_eq_getLast (x :: xs) (by simp)] at h
    have := List.getLast_mem (l := x :: xs) (by simp)
    rwa [Option.some_inj.mp h] at this

/-- A string of the shape `x ++ c :: digits` cannot equal
`y ++ c :: (strictly more digits)` when `c` is not a digit: the extra
digits would have to reach across the non-digit marker `c`. -/
theorem append_digits_absurd (x1 x2 d1 d2 : List Char) (c : Char)
    (hc : c.isDigit = false)
    (h2 : ∀ a ∈ d2, a.isDigit = true)
    (hlt : d1.length < d2.length)
    (he : x1 ++ c :: d1 = x2 ++ c :: d2) : False := by
  set k := d2.length - d1.length with hk
  have hk0 : 0 < k := by omega
  have hlen : d1.length = (d2.drop k).length := by simp; omega
  have he2 : (x1 ++ [c]) ++ d1 = (x2 ++ (c :: d2.take k)) ++ d2.drop k := by
    rw [← List.take_append_drop k d2] at he
    simpa using he
  obtain ⟨hx, _⟩ := List.append_inj' he2 hlen
  have ht : d2.take k ≠ [] := by
    intro hnil
    rcases (List.take_eq_nil_iff).mp hnil with h | h
    · omega
    · subst h; simp at hlt
  have hlast1 : (x1 ++ [c]).getLast? = some c := by simp
  have hlast2 : (x2 ++ (c :: d2.take k)).getLast? = (d2.take k).getLast? := by
    have : x2 ++ (c :: d2.take k) = (x2 ++ [c]) ++ d2.take k := by simp
    rw [this, List.getLast?_append_of_ne_nil _ ht]
  rw [hx, hlast2] at hlast1
  have hmem : c ∈ d2.take k := mem_of_getLast_opt hlast1
  have : c.isDigit = true := h2 c (List.take_subset k d2 hmem)
  rw [hc] at this
  exact Bool.false_ne_true this

/-- Unique decomposition of `x ++ c :: digits` when `c` is not a digit:
both the prefix and the digit suffix are determined. -/
theorem append_digits_split (x1 x2 d1 d2 : List Char) (c : Char)
    (hc : c.isDigit = false)
    (h1 : ∀ a ∈ d1, a.isDigit = true) (h2 : ∀ a ∈ d2, a.isDigit = true)
    (he : x1 ++ c :: d1 = x2 ++ c :: d2) : x1 = x2 ∧ d1 = d2 := by
  rcases Nat.lt_trichotomy d1.length d2.length with hl | hl | hl
  · exact absurd he (fun he => append_digits_absurd x1 x2 d1 d2 c hc h2 hl he)
  · obtain ⟨hx, hd⟩ := List.append_inj' he (by simp [hl])
    exact ⟨hx, by injection hd⟩
  · exact absurd he.symm (fun he => append_digits_absurd x2 x1 d2 d1 c hc h1 hl he)

/-- The fixed `"_node"` infix of a vector id. -/
def node_tag : List Char := ['_', 'n', 'o', 'd', 'e']

/-- The fixed `"_chunk"` infix of a vector id. -/
def chunk_tag : List Char := ['_', 'c', 'h', 'u', 'n', 'k']

/-- The vector id `f"{pdf_id}_node{node_idx}_chunk{chunk_idx}"`
(text_processor.py line 148). -/
def vector_id (pdf : String) (ni ci : Nat) : String :=
  String.mk (pdf.data ++ node_tag ++ py_nat ni ++ chunk_tag ++ py_nat ci)

/-- The id scheme is injective: distinct `(document_id, node_index,
chunk_index)` triples give distinct ids, even when the document id
itself contains `"_node"` or `"_chunk"` substrings. -/
theorem vector_id_inj (p1 p2 : String) (n1 c1 n2 c2 : Nat)
    (h : vector_id p1 n1 c1 = vector_id p2 n2 c2) :
    p1 = p2 ∧ n1 = n2 ∧ c1 = c2 := by
  have hd : p1.data ++ node_tag ++ py_nat n1 ++ chunk_tag ++ py_nat c1
          = p2.data ++ node_tag ++ py_nat n2 ++ chunk_tag ++ py_nat c2 := by
    have h2 := congrArg String.data h
    simpa [vector_id] using h2
  have heq1 : (p1.data ++ (node_tag ++ (py_nat n1 ++ ['_', 'c', 'h', 'u', 'n']))) ++ 'k' :: py_nat c1
            = (p2.data ++ (node_tag ++ (py_nat n2 ++ ['_', 'c', 'h', 'u', 'n']))) ++ 'k' :: py_nat c2 := by
    simpa [List.append_assoc, chunk_tag] using hd
  obtain ⟨hA, hcz⟩ := append_digits_split _ _ _ _ 'k' (by decide)
    (py_nat_digits c1) (py_nat_digits c2) heq1
  have hcc : c1 = c2 := py_nat_inj hcz
  have hA2 : (p1.data ++ node_tag ++ py_nat n1) ++ ['_', 'c', 'h', 'u', 'n']
           = (p2.data ++ node_tag ++ py_nat n2) ++ ['_', 'c', 'h', 'u', 'n'] := by
    simpa [List.append_assoc] using hA
  have hX := List.append_cancel_right hA2
  have heq3 : (p1.data ++ ['_', 'n', 'o', 'd']) ++ 'e' :: py_nat n1
            = (p2.data ++ ['_', 'n', 'o', 'd']) ++ 'e' :: py_nat n2 := by
    simpa [List.append_assoc, node_tag] using hX
  obtain ⟨hB, hnz⟩ := append_digits_split _ _ _ _ 'e' (by decide)
    (py_nat_digits n1) (py_nat_digits n2) heq3
  have hnn : n1 = n2 := py_nat_inj hnz
  have hp : p1.data = p2.data := List.append_cancel_right hB
  refine ⟨?_, hnn, hcc⟩
  cases p1; cases p2; exact congrArg String.mk hp

deriving instance DecidableEq for Except

/-- Scalar JSON values (null, booleans, integers, strings). Numbers
are modelled as integers: the only numbers this pipeline serializes
are page numbers and indices. -/
inductive JScalar where
  | null : JScalar
  | bool : Bool → JScalar
  | num : Int → JScalar
  | str : String → JScalar
deriving DecidableEq

/-- JSON documents of the shapes this pipeline produces and consumes:
scalars, arrays of scalars, and objects mapping string keys to
scalars (the stored `node_info` is a flat object). -/
inductive Json where
  | scalar : JScalar → Json
  | arr : List JScalar → Json
  | obj : List (String × JScalar) → Json
deriving DecidableEq

/-- Python `str` of an `int` (optional minus sign, then digits). -/
def int_chars (i : Int) : List Char :=
  if i < 0 then '-' :: py_nat (-i).toNat else py_nat i.toNat

/-- JSON string escaping as performed by `json.dumps`: `"` and `\`
get a backslash escape and control characters become `\u00XX`
(Python's shorthand escapes such as `\n` denote the same characters
and round-trip identically). -/
def esc_char (c : Char) : List Char :=
  if c = qmark then [bslash, qmark]
  else if c = bslash then [bslash, bslash]
  else if c.toNat < 32 then
    [bslash, 'u', '0', '0', Nat.digitChar (c.toNat / 16), Nat.digitChar (c.toNat % 16)]
  else [c]

def esc_string : List Char → List Char
  | [] => []
  | c :: cs => esc_char c ++ esc_string cs

/-- Serialization of a scalar, as `json.dumps` prints it. -/
def scalar_dumps : JScalar → List Char
  | .null => ("null").data
  | .bool true => ("true").data
  | .bool false => ("false").data
  | .num i => int_chars i
  | .str s => qmark :: esc_string s.data ++ [qmark]

/-- Join serialized items with `json.dumps`'s default `", "` separator. -/
def join_comma : List (List Char) → List Char
  | [] => []
  | [x] => x
  | x :: y :: rest => x ++ ',' :: ' ' :: join_comma (y :: rest)

/-- One serialized `"key": value` object member. -/
def member_dumps (kv : String × JScalar) : List Char :=
  qmark :: esc_string kv.1.data ++ qmark :: ':' :: ' ' :: scalar_dumps kv.2

/-- Serialization as `json.dumps` (with its default separators) prints the documents of
this pipeline. -/
def json_dumps_chars : Json → List Char
  | .scalar v => scalar_dumps v
  | .arr xs => lbrack :: join_comma (xs.map scalar_dumps) ++ [rbrack]
  | .obj ms => lcur :: join_comma (ms.map member_dumps) ++ [rcur]

def json_dumps (j : Json) : String := String.mk (json_dumps_chars j)

/-- JSON whitespace. -/
def is_ws (c : Char) : Bool := c = ' ' || c = '\n' || c = '\t' || c = '\r'

def skip_ws : List Char → List Char
  | [] => []
  | c :: cs => if is_ws c then skip_ws cs else c :: cs

/-- Value of a hexadecimal digit. -/
def hex_val (c : Char) : Option Nat :=
  if c.isDigit then some (c.toNat - 48)
  else if 97 ≤ c.toNat && c.toNat ≤ 102 then some (c.toNat - 87)
  else if 65 ≤ c.toNat && c.toNat ≤ 70 then some (c.toNat - 55)
  else none

def opt_cons (c : Char) : Option (List Char × List Char) → Option (List Char × List Char)
  | none => none
  | some (s, r) => some (c :: s, r)

/-- Parse the body of a JSON string after its opening quote, up to and
including the closing quote; returns the decoded characters and the
remaining input. Fuelled; one unit of fuel per decoded character. -/
def parse_string_body : Nat → List Char → Option (List Char × List Char)
  | 0, _ => none
  | _ + 1, [] => none
  | f + 1, c :: cs =>
    if c = qmark then some ([], cs)
    else if c = bslash then
      match cs with
      | [] => none
      | e :: es =>
        if e = qmark then opt_cons qmark (parse_string_body f es)
        else if e = bslash then opt_cons bslash (parse_string_body f es)
        else if e = '/' then opt_cons '/' (parse_string_body f es)
        else if e = 'n' then opt_cons '\n' (parse_string_body f es)
        else if e = 't' then opt_cons '\t' (parse_string_body f es)
        else if e = 'r' then opt_cons '\r' (parse_string_body f es)
        else if e = 'b' then opt_cons (Char.ofNat 8) (parse_string_body f es)
        else if e = 'f' then opt_cons (Char.ofNat 12) (parse_string_body f es)
        else if e = 'u' then
          match es with
          | h1 :: h2 :: h3 :: h4 :: es2 =>
            match hex_val h1, hex_val h2, hex_val h3, hex_val h4 with
            | some a, some b, some c2, some d =>
              opt_cons (Char.ofNat (a * 4096 + b * 256 + c2 * 16 + d)) (parse_string_body f es2)
            | _, _, _, _ => none
          | _ => none
        else none
    else opt_cons c (parse_string_body f cs)

/-- Parse a nonempty run of digits as a natural number. -/
def parse_digits (l : List Char) : Option (Nat × List Char) :=
  let ds := l.takeWhile Char.isDigit
  if ds.isEmpty then none
  else some (str_val ds, l.dropWhile Char.isDigit)

/-- Parse an integer literal (optional minus sign, one or more digits). -/
def parse_int : List Char → Option (Int × List Char)
  | [] => none
  | c :: rest =>
    if c = '-' then
      match parse_digits rest with
      | none => none
      | some (n, r) => some (-(n : Int), r)
    else
      match parse_digits (c :: rest) with
      | none => none
      | some (n, r) => some ((n : Int), r)

/-- Parse a scalar JSON value at the head of the input. -/
def parse_scalar : List Char → Option (JScalar × List Char)
  | [] => none
  | c :: cs =>
    if c = qmark then
      match parse_string_body (cs.length + 1) cs with
      | none => none
      | some (s, r) => some (.str (String.mk s), r)
    else if c = 'n' then
      if ['u', 'l', 'l'].isPrefixOf cs then some (.null, cs.drop 3) else none
    else if c = 't' then
      if ['r', 'u', 'e'].isPrefixOf cs then some (.bool true, cs.drop 3) else none
    else if c = 'f' then
      if ['a', 'l', 's', 'e'].isPrefixOf cs then some (.bool false, cs.drop 4) else none
    else
      match parse_int (c :: cs) with
      | none => none
      | some (i, r) => some (.num i, r)

/-- Parse the members of a JSON object after its opening brace (first
member onward); consumes the closing brace. Fuelled; one unit of fuel
per member. -/
def parse_members : Nat → List Char → Option (List (String × JScalar) × List Char)
  | 0, _ => none
  | f + 1, l =>
    match skip_ws l with
    | [] => none
    | c :: cs =>
      if c = qmark then
        match parse_string_body (cs.length + 1) cs with
        | none => none
        | some (k, r1) =>
          match skip_ws r1 with
          | [] => none
          | c2 :: r3 =>
            if c2 = ':' then
              match parse_scalar (skip_ws r3) with
              | none => none
              | some (v, r4) =>
                match skip_ws r4 with
                | [] => none
                | c3 :: r6 =>
                  if c3 = ',' then
                    match parse_members f r6 with
                    | none => none
                    | some (ms, rr) => some ((String.mk k, v) :: ms, rr)
                  else if c3 = rcur then some ([(String.mk k, v)], r6)
                  else none
            else none
      else none

/-- Parse the items of a JSON array after its opening bracket (first
item onward); consumes the closing bracket. Fuelled. -/
def parse_items : Nat → List Char → Option (List JScalar × List Char)
  | 0, _ => none
  | f + 1, l =>
    match parse_scalar (skip_ws l) with
    | none => none
    | some (v, r1) =>
      match skip_ws r1 with
      | [] => none
      | c2 :: r2 =>
        if c2 = ',' then
          match parse_items f r2 with
          | none => none
          | some (xs, rr) => some (v :: xs, rr)
        else if c2 = rbrack then some ([v], r2)
        else none

/-- Parse one JSON value at the head of the input. -/
def parse_value (l0 : List Char) : Option (Json × List Char) :=
  match skip_ws l0 with
  | [] => none
  | c :: cs =>
    if c = lcur then
      match skip_ws cs with
      | [] => none
      | d :: ds =>
        if d = rcur then some (.obj [], ds)
        else
          match parse_members (cs.length + 1) cs with
          | none => none
          | some (ms, r) => some (.obj ms, r)
    else if c = lbrack then
      match skip_ws cs with
      | [] => none
      | d :: ds =>
        if d = rbrack then some (.arr [], ds)
        else
          match parse_items (cs.length + 1) cs with
          | none => none
          | some (xs, r) => some (.arr xs, r)
    else
      match parse_scalar (c :: cs) with
      | none => none
      | some (v, r) => some (.scalar v, r)

/-- Parsing as `json.loads`: parse a complete JSON document, rejecting trailing
garbage; a `JSONDecodeError` is modelled by `Except.error`. -/
def json_loads (s : String) : Except String Json :=
  match parse_value s.data with
  | none => .error ("Expecting value")
  | some (v, rest) =>
    if (skip_ws rest).isEmpty then .ok v else .error ("Extra data")

theorem hex_val_digitChar (d : Nat) (h : d < 16) : hex_val (Nat.digitChar d) = some d := by
  interval_cases d <;> decide

theorem psb_step_close (g : Nat) (l : List Char) :
    parse_string_body (g + 1) (qmark :: l) = some ([], l) := by
  simp [parse_string_body]

theorem psb_step_plain (c : Char) (h1 : ¬c = qmark) (h2 : ¬c = bslash) (g : Nat) (l : List Char) :
    parse_string_body (g + 1) (c :: l) = opt_cons c (parse_string_body g l) := by
  simp [parse_string_body, h1, h2]

theorem psb_step_esc_q (g : Nat) (l : List Char) :
    parse_string_body (g + 1) (bslash :: qmark :: l) = opt_cons qmark (parse_string_body g l) := by
  have h1 : ¬bslash = qmark := by decide
  simp [parse_string_body, h1]

theorem psb_step_esc_b (g : Nat) (l : List Char) :
    parse_string_body (g + 1) (bslash :: bslash :: l) = opt_cons bslash (parse_string_body g l) := by
  have h1 : ¬bslash = qmark := by decide
  simp [parse_string_body, h1]

theorem psb_step_esc_u (g : Nat) (l : List Char) (d1 d2 : Nat) (h1 : d1 < 16) (h2 : d2 < 16) :
    parse_string_body (g + 1)
      (bslash :: 'u' :: '0' :: '0' :: Nat.digitChar d1 :: Nat.digitChar d2 :: l)
    = opt_cons (Char.ofNat (d1 * 16 + d2)) (parse_string_body g l) := by
  have hq : ¬bslash = qmark := by decide
  simp only [parse_string_body, if_neg hq, if_pos rfl]
  have e1 : ¬('u' : Char) = qmark := by decide
  have e2 : ¬('u' : Char) = bslash := by decide
  simp only [if_neg e1, if_neg e2]
  have e3 : ¬('u' : Char) = '/' := by decide
  have e4 : ¬('u' : Char) = 'n' := by decide
  have e5 : ¬('u' : Char) = 't' := by decide
  have e6 : ¬('u' : Char) = 'r' := by decide
  have e7 : ¬('u' : Char) = 'b' := by decide
  have e8 : ¬('u' : Char) = 'f' := by decide
  simp only [if_neg e3, if_neg e4, if_neg e5, if_neg e6, if_neg e7, if_neg e8, if_pos rfl]
  have hz : hex_val '0' = some 0 := by decide
  rw [hz, hex_val_digitChar d1 h1, hex_val_digitChar d2 h2]
  norm_num

theorem esc_char_q : esc_char qmark = [bslash, qmark] := by decide

theorem esc_char_b : esc_char bslash = [bslash, bslash] := by decide

theorem esc_char_ctl (c : Char) (h1 : ¬c = qmark) (h2 : ¬c = bslash) (h3 : c.toNat < 32) :
    esc_char c = [bslash, 'u', '0', '0', Nat.digitChar (c.toNat / 16), Nat.digitChar (c.toNat % 16)] := by
  simp [esc_char, h1, h2, h3]

theorem esc_char_plain (c : Char) (h1 : ¬c = qmark) (h2 : ¬c = bslash) (h3 : ¬c.toNat < 32) :
    esc_char c = [c] := by
  simp [esc_char, h1, h2, h3]

theorem esc_char_length (c : Char) : 1 ≤ (esc_char c).length := by
  by_cases h1 : c = qmark
  · subst h1; rw [esc_char_q]; decide
  · by_cases h2 : c = bslash
    · subst h2; rw [esc_char_b]; decide
    · by_cases h3 : c.toNat < 32
      · rw [esc_char_ctl c h1 h2 h3]; simp
      · rw [esc_char_plain c h1 h2 h3]; simp

theorem esc_string_length (s : List Char) : s.length ≤ (esc_string s).length := by
  induction s with
  | nil => simp [esc_string]
  | cons c cs ih =>
    have := esc_char_length c
    simp only [esc_string, List.length_append, List.length_cons]
    omega

/-- Round trip for string bodies: parsing the escaped form of `s`
followed by a closing quote recovers `s` exactly. -/
theorem psb_esc (s : List Char) : ∀ f rest, s.length < f →
    parse_string_body f (esc_string s ++ qmark :: rest) = some (s, rest) := by
  induction s with
  | nil =>
    intro f rest hf
    cases f with
    | zero => omega
    | succ g => simpa [esc_string] using psb_step_close g rest
  | cons c cs ih =>
    intro f rest hf
    cases f with
    | zero => omega
    | succ g =>
      have hg : cs.length < g := by
        simp only [List.length_cons] at hf; omega
      have ihg := ih g rest hg
      simp only [esc_string, List.append_assoc]
      by_cases h1 : c = qmark
      · subst h1
        rw [esc_char_q]
        simp only [List.cons_append, List.nil_append]
        rw [psb_step_esc_q g _, ihg]
        rfl
      · by_cases h2 : c = bslash
        · subst h2
          rw [esc_char_b]
          simp only [List.cons_append, List.nil_append]
          rw [psb_step_esc_b g _, ihg]
          rfl
        · by_cases h3 : c.toNat < 32
          · rw [esc_char_ctl c h1 h2 h3]
            simp only [List.cons_append, List.nil_append]
            rw [psb_step_esc_u g _ (c.toNat / 16) (c.toNat % 16) (by omega) (by omega), ihg]
            have hv : c.toNat / 16 * 16 + c.toNat % 16 = c.toNat := by omega
            rw [hv, Char.ofNat_toNat]
            rfl
          · rw [esc_char_plain c h1 h2 h3]
            simp only [List.cons_append, List.nil_append]
            rw [psb_step_plain c h1 h2 g _, ihg]
            rfl

theorem takeWhile_digits_append (a b : List Char)
    (ha : ∀ x ∈ a, x.isDigit = true)
    (hb : ∀ c ∈ b.head?, c.isDigit = false) :
    (a ++ b).takeWhile Char.isDigit = a ∧ (a ++ b).dropWhile Char.isDigit = b := by
  induction a with
  | nil =>
    cases b with
    | nil => simp
    | cons c bs =>
      have hc := hb c (by simp)
      simp [List.takeWhile_cons, List.dropWhile_cons, hc]
  | cons x xs ih =>
    have hx : x.isDigit = true := ha x (by simp)
    have ⟨h1, h2⟩ := ih (fun y hy => ha y (by simp [hy]))
    simp [List.takeWhile_cons, List.dropWhile_cons, hx, h1, h2]

theorem parse_digits_py_nat (m : Nat) (rest : List Char)
    (hr : ∀ c ∈ rest.head?, c.isDigit = false) :
    parse_digits (py_nat m ++ rest) = some (m, rest) := by
  have ⟨h1, h2⟩ := takeWhile_digits_append (py_nat m) rest (py_nat_digits m) hr
  have hne : ¬(py_nat m).isEmpty = true := by
    simpa [List.isEmpty_iff] using py_nat_ne_nil m
  simp [parse_digits, h1, h2, hne, str_val_py_nat m]

theorem parse_int_chars (i : Int) (rest : List Char)
    (hr : ∀ c ∈ rest.head?, c.isDigit = false) :
    parse_int (int_chars i ++ rest) = some (i, rest) := by
  by_cases hi : i < 0
  · have : int_chars i = '-' :: py_nat (-i).toNat := by simp [int_chars, hi]
    rw [this]
    simp only [List.cons_append, parse_int, if_pos rfl]
    rw [parse_digits_py_nat (-i).toNat rest hr]
    have : (((-i).toNat : Int)) = -i := Int.toNat_of_nonneg (by omega)
    simp [this]
  · have hic : int_chars i = py_nat i.toNat := by simp [int_chars, hi]
    obtain ⟨d, t, hdt⟩ : ∃ d t, py_nat i.toNat ++ rest = d :: t := by
      cases hp : py_nat i.toNat with
      | nil => exact absurd hp (py_nat_ne_nil _)
      | cons d t => exact ⟨d, t ++ rest, by simp⟩
    have hd : d.isDigit = true := by
      have : d ∈ py_nat i.toNat ++ rest := by rw [hdt]; simp
      rcases List.mem_append.mp this with h | h
      · exact py_nat_digits _ d h
      · cases hpr : py_nat i.toNat with
        | nil => exact absurd hpr (py_nat_ne_nil _)
        | cons x xs =>
          rw [hpr] at hdt
          have hdx : d = x := by
            have := (List.cons.injEq x (xs ++ rest) d t).mp (by simpa using hdt)
            exact this.1.symm
          rw [hdx]
          exact py_nat_digits _ x (by rw [hpr]; simp)
    have hdm : ¬d = '-' := by
      intro hcon; rw [hcon] at hd; exact absurd hd (by decide)
    rw [hic, hdt]
    simp only [parse_int, if_neg hdm]
    rw [← hdt, parse_digits_py_nat i.toNat rest hr]
    have : ((i.toNat : Int)) = i := Int.toNat_of_nonneg (by omega)
    simp [this]

theorem parse_scalar_dumps (v : JScalar) (rest : List Char)
    (hr : ∀ c ∈ rest.head?, c.isDigit = false) :
    parse_scalar (scalar_dumps v ++ rest) = some (v, rest) := by
  cases v with
  | null =>
    show parse_scalar ('n' :: 'u' :: 'l' :: 'l' :: rest) = _
    have h1 : ¬('n' : Char) = qmark := by decide
    simp [parse_scalar, h1, List.isPrefixOf]
  | bool b =>
    cases b with
    | true =>
      show parse_scalar ('t' :: 'r' :: 'u' :: 'e' :: rest) = _
      have h1 : ¬('t' : Char) = qmark := by decide
      have h2 : ¬('t' : Char) = 'n' := by decide
      simp [parse_scalar, h1, h2, List.isPrefixOf]
    | false =>
      show parse_scalar ('f' :: 'a' :: 'l' :: 's' :: 'e' :: rest) = _
      have h1 : ¬('f' : Char) = qmark := by decide
      have h2 : ¬('f' : Char) = 'n' := by decide
      have h3 : ¬('f' : Char) = 't' := by decide
      simp [parse_scalar, h1, h2, h3, List.isPrefixOf]
  | num i =>
    have hpi := parse_int_chars i rest hr
    by_cases hi : i < 0
    · have hic : int_chars i = '-' :: py_nat (-i).toNat := by simp [int_chars, hi]
      have hs : scalar_dumps (JScalar.num i) ++ rest = '-' :: (py_nat (-i).toNat ++ rest) := by
        simp [scalar_dumps, hic]
      rw [hs]
      have h1 : ¬('-' : Char) = qmark := by decide
      have h2 : ¬('-' : Char) = 'n' := by decide
      have h3 : ¬('-' : Char) = 't' := by decide
      have h4 : ¬('-' : Char) = 'f' := by decide
      simp only [parse_scalar, if_neg h1, if_neg h2, if_neg h3, if_neg h4]
      rw [hic] at hpi
      simp only [List.cons_append] at hpi
      rw [hpi]
    · have hic : int_chars i = py_nat i.toNat := by simp [int_chars, hi]
      obtain ⟨d, t, hdt⟩ : ∃ d t, py_nat i.toNat ++ rest = d :: t := by
        cases hp : py_nat i.toNat with
        | nil => exact absurd hp (py_nat_ne_nil _)
        | cons d t => exact ⟨d, t ++ rest, by simp⟩
      have hd : d.isDigit = true := by
        cases hpr : py_nat i.toNat with
        | nil => exact absurd hpr (py_nat_ne_nil _)
        | cons x xs =>
          rw [hpr] at hdt
          have hdx : d = x := by
            have := (List.cons.injEq x (xs ++ rest) d t).mp (by simpa using hdt)
            exact this.1.symm
          rw [hdx]
          exact py_nat_digits _ x (by rw [hpr]; simp)
      have h1 : ¬d = qmark := by
        intro hcon; rw [hcon] at hd; exact absurd hd (by decide)
      have h2 : ¬d = 'n' := by
        intro hcon; rw [hcon] at hd; exact absurd hd (by decide)
      have h3 : ¬d = 't' := by
        intro hcon; rw [hcon] at hd; exact absurd hd (by decide)
      have h4 : ¬d = 'f' := by
        intro hcon; rw [hcon] at hd; exact absurd hd (by decide)
      have hs : scalar_dumps (JScalar.num i) ++ rest = d :: t := by
        simp [scalar_dumps, hic, hdt]
      rw [hs]
      simp only [parse_scalar, if_neg h1, if_neg h2, if_neg h3, if_neg h4]
      rw [← hdt]
      rw [hic] at hpi
      rw [hpi]
  | str s =>
    have hs : scalar_dumps (JScalar.str s) ++ rest
            = qmark :: (esc_string s.data ++ qmark :: rest) := by
      simp [scalar_dumps]
    rw [hs]
    simp only [parse_scalar, if_pos rfl]
    have hfuel : s.data.length < (esc_string s.data ++ qmark :: rest).length + 1 := by
      have := esc_string_length s.data
      simp only [List.length_append, List.length_cons]
      omega
    rw [psb_esc s.data _ rest hfuel]
    cases s
    rfl

theorem skip_ws_cons (c : Char) (l : List Char) (h : is_ws c = false) :
    skip_ws (c :: l) = c :: l := by
  simp [skip_ws, h]

theorem is_ws_of_digit (c : Char) (h : c.isDigit = true) : is_ws c = false := by
  have h1 : ¬c = ' ' := by intro hc; rw [hc] at h; exact absurd h (by decide)
  have h2 : ¬c = '\n' := by intro hc; rw [hc] at h; exact absurd h (by decide)
  have h3 : ¬c = '\t' := by intro hc; rw [hc] at h; exact absurd h (by decide)
  have h4 : ¬c = '\r' := by intro hc; rw [hc] at h; exact absurd h (by decide)
  simp [is_ws, h1, h2, h3, h4]

/-- The serialized form of a scalar starts with a non-whitespace
character. -/
theorem scalar_dumps_head (v : JScalar) :
    ∃ c t, scalar_dumps v = c :: t ∧ is_ws c = false := by
  cases v with
  | null => exact ⟨'n', _, rfl, by decide⟩
  | bool b => cases b with
    | true => exact ⟨'t', _, rfl, by decide⟩
    | false => exact ⟨'f', _, rfl, by decide⟩
  | num i =>
    by_cases hi : i < 0
    · refine ⟨'-', py_nat (-i).toNat, ?_, by decide⟩
      simp [scalar_dumps, int_chars, hi]
    · cases hp : py_nat i.toNat with
      | nil => exact absurd hp (py_nat_ne_nil _)
      | cons d t =>
        refine ⟨d, t, ?_, ?_⟩
        · simp [scalar_dumps, int_chars, hi, hp]
        · exact is_ws_of_digit d (py_nat_digits _ d (by rw [hp]; simp))
  | str s => exact ⟨qmark, _, rfl, by decide⟩

theorem join_member_head (ms : List (String × JScalar)) (h : ms ≠ []) :
    ∃ t, join_comma (ms.map member_dumps) = qmark :: t := by
  cases ms with
  | nil => exact absurd rfl h
  | cons kv rest =>
    cases rest with
    | nil => exact ⟨_, rfl⟩
    | cons kv2 rest2 => exact ⟨_, rfl⟩

theorem parse_members_ws_congr (f : Nat) (l1 l2 : List Char) (h : skip_ws l1 = skip_ws l2) :
    parse_members (f + 1) l1 = parse_members (f + 1) l2 := by
  simp only [parse_members, h]

/-- Round trip for object members: parsing the serialized members of a
nonempty flat object, followed by the closing brace, recovers the
member list exactly. -/
theorem parse_members_enc (ms : List (String × JScalar)) : ∀ f tail, ms ≠ [] → ms.length < f →
    parse_members f (join_comma (ms.map member_dumps) ++ rcur :: tail) = some (ms, tail) := by
  induction ms with
  | nil => intro f tail h; exact absurd rfl h
  | cons kv rest ih =>
    intro f tail _ hf
    obtain ⟨k, v⟩ := kv
    cases f with
    | zero => omega
    | succ g =>
      set X := (if rest.isEmpty = true then rcur :: tail
                else ',' :: ' ' :: (join_comma (rest.map member_dumps) ++ rcur :: tail))
        with hX
      have hjoin : join_comma (((k, v) :: rest).map member_dumps) ++ rcur :: tail
          = member_dumps (k, v) ++ X := by
        rw [hX]
        cases rest with
        | nil => simp [join_comma]
        | cons kv2 rest2 => simp [join_comma, List.append_assoc]
      rw [hjoin]
      have hmem : member_dumps (k, v) ++ X
          = qmark :: (esc_string k.data ++ qmark ::
              (':' :: (' ' :: (scalar_dumps v ++ X)))) := by
        simp [member_dumps, List.append_assoc]
      rw [hmem]
      simp only [parse_members]
      rw [skip_ws_cons qmark _ (by decide)]
      simp only [if_pos rfl, if_true]
      have hfuel : k.data.length <
          (esc_string k.data ++ qmark :: (':' :: (' ' :: (scalar_dumps v ++ X)))).length + 1 := by
        have := esc_string_length k.data
        simp only [List.length_append, List.length_cons]
        omega
      rw [psb_esc k.data _ _ hfuel]
      simp only [if_true]
      rw [skip_ws_cons ':' _ (by decide)]
      simp only [if_pos rfl, if_true]
      have hsp : skip_ws (' ' :: (scalar_dumps v ++ X)) = scalar_dumps v ++ X := by
        obtain ⟨c, t, hct, hc⟩ := scalar_dumps_head v
        rw [show skip_ws (' ' :: (scalar_dumps v ++ X)) = skip_ws (scalar_dumps v ++ X) from by
          simp [skip_ws, is_ws]]
        rw [hct]
        simp only [List.cons_append]
        exact skip_ws_cons c _ hc
      rw [hsp]
      have hrest_head : ∀ c ∈ X.head?, c.isDigit = false := by
        rw [hX]
        cases rest with
        | nil => intro c hc; simp at hc; subst hc; decide
        | cons kv2 rest2 => intro c hc; simp at hc; subst hc; decide
      rw [parse_scalar_dumps v X hrest_head]
      cases hrest : rest with
      | nil =>
        have hXr : X = rcur :: tail := by rw [hX, hrest]; simp
        rw [hXr]
        simp only []
        rw [skip_ws_cons rcur _ (by decide)]
        have hne : ¬rcur = ',' := by decide
        simp only [if_neg hne, if_pos rfl]
        cases k
        rfl
      | cons kv2 rest2 =>
        have hXr : X = ',' :: ' ' :: (join_comma ((kv2 :: rest2).map member_dumps) ++ rcur :: tail) := by
          rw [hX, hrest]; simp
        rw [hXr]
        simp only []
        rw [skip_ws_cons ',' _ (by decide)]
        simp only [if_pos rfl, if_true]
        rw [hrest] at ih hf
        cases g with
        | zero => simp only [List.length_cons] at hf; omega
        | succ g2 =>
          have hward : parse_members (g2 + 1)
                (' ' :: (join_comma ((kv2 :: rest2).map member_dumps) ++ rcur :: tail))
              = parse_members (g2 + 1)
                (join_comma ((kv2 :: rest2).map member_dumps) ++ rcur :: tail) :=
            parse_members_ws_congr g2 _ _ rfl
          rw [hward, ih (g2 + 1) tail (by simp) (by simp only [List.length_cons] at hf ⊢; omega)]

theorem join_member_length (ms : List (String × JScalar)) :
    ms.length ≤ (join_comma (ms.map member_dumps)).length := by
  induction ms with
  | nil => simp [join_comma]
  | cons kv rest ih =>
    cases rest with
    | nil =>
      have hjm : join_comma ([kv].map member_dumps) = member_dumps kv := by
        simp [join_comma]
      rw [hjm, member_dumps]
      simp
    | cons kv2 rest2 =>
      simp only [List.map_cons, join_comma, List.length_append, List.length_cons] at ih ⊢
      omega

/-- Round trip for flat objects: `json.loads (json.dumps obj)`
recovers the member list exactly. -/
theorem json_loads_dumps_obj (ms : List (String × JScalar)) :
    json_loads (json_dumps (Json.obj ms)) = .ok (Json.obj ms) := by
  cases ms with
  | nil => decide
  | cons kv rest =>
    have hlen := join_member_length (kv :: rest)
    have hpv : parse_value (lcur :: (join_comma ((kv :: rest).map member_dumps) ++ rcur :: []))
        = some (Json.obj (kv :: rest), []) := by
      obtain ⟨t, ht⟩ := join_member_head (kv :: rest) (by simp)
      simp only [parse_value]
      rw [skip_ws_cons lcur _ (by decide)]
      simp only [if_pos rfl, if_true]
      rw [ht]
      simp only [List.cons_append]
      rw [skip_ws_cons qmark _ (by decide)]
      have hq : ¬qmark = rcur := by decide
      simp only [if_neg hq]
      rw [ht] at hlen
      simp only [List.length_cons] at hlen
      have henc := parse_members_enc (kv :: rest)
        ((qmark :: (t ++ rcur :: [])).length + 1) []
        (by simp) (by simp only [List.length_cons, List.length_append]; omega)
      rw [ht] at henc
      simp only [List.cons_append] at henc
      rw [henc]
    have hdata : (json_dumps (Json.obj (kv :: rest))).data
        = lcur :: (join_comma ((kv :: rest).map member_dumps) ++ rcur :: []) := by
      simp [json_dumps, json_dumps_chars]
    simp only [json_loads, hdata, hpv, skip_ws, List.isEmpty_nil, if_true]

/-- Configured maximum chunk length (`chunk_size=1000`,
text_processor.py line 44). -/
def chunk_size : Nat := 1000

/-- Configured overlap between consecutive chunks (`chunk_overlap=50`,
text_processor.py line 45). -/
def chunk_overlap : Nat := 50

/-- The configured separator priority list
(`["\n\n", "\n", ". ", " ", ""]`, text_processor.py line 47). -/
def separators : List (List Char) := [['\n', '\n'], ['\n'], ['.', ' '], [' '], []]

/-- The last `n` characters of a list. -/
def take_right (n : Nat) (l : List Char) : List Char := l.drop (l.length - n)

def hard_cut_aux (m : Nat) : Nat → List Char → List (List Char)
  | 0, _ => []
  | _ + 1, [] => []
  | f + 1, c :: cs => (c :: cs).take m :: hard_cut_aux m f ((c :: cs).drop m)

/-- Hard character cut: slice into consecutive pieces of at most `m`
characters (the finest fallback of the recursive splitter). -/
def hard_cut (m : Nat) (l : List Char) : List (List Char) :=
  hard_cut_aux m (l.length + 1) l

def find_split (sep : List Char) : List Char → Option (List Char × List Char)
  | [] => none
  | c :: cs =>
    if sep.isPrefixOf (c :: cs) then some ([], (c :: cs).drop sep.length)
    else
      match find_split sep cs with
      | none => none
      | some (b, a) => some (c :: b, a)

def split_on_sep_aux (sep : List Char) : Nat → List Char → List (List Char)
  | 0, l => [l]
  | f + 1, l =>
    match find_split sep l with
    | none => [l]
    | some (b, a) => b :: split_on_sep_aux sep f a

/-- Split on every occurrence of a (nonempty) separator, dropping the
separator, as Python string splitting does. -/
def split_on_sep (sep l : List Char) : List (List Char) :=
  split_on_sep_aux sep (l.length + 1) l

/-- Greedy merge of adjacent small pieces: extend the current chunk
while the bound `m` allows, otherwise emit it and start the next chunk
from up to `olap` trailing characters of the emitted one (dropped when
even that would break the bound). Empty pieces are skipped. -/
def merge_splits (m olap : Nat) (sep : List Char) : List Char → List (List Char) → List (List Char)
  | cur, [] => if cur.isEmpty then [] else [cur]
  | cur, p :: ps =>
    if cur.isEmpty then merge_splits m olap sep p ps
    else if cur.length + sep.length + p.length ≤ m then
      merge_splits m olap sep (cur ++ sep ++ p) ps
    else
      cur ::
        (let t := take_right olap cur
         merge_splits m olap sep
           (if t.length + sep.length + p.length ≤ m then t ++ sep ++ p else p) ps)

/-- Modelled from the spec: the repository configures langchain's
`RecursiveCharacterTextSplitter` (an external library whose code is not
part of the repository), and §4.1 of the spec describes it: split on
the coarsest separator first, recursively split any piece that exceeds
the maximum length with the finer separators, fall back to a hard
character cut on the empty separator, merge adjacent small pieces back
together while the bound allows, carrying up to `chunk_overlap`
trailing characters across a chunk boundary; empty input yields an
empty sequence. Fuelled on the separator list; the fuel is always
sufficient since each recursion step drops one separator. -/
def split_rec (m olap : Nat) : Nat → List (List Char) → List Char → List (List Char)
  | 0, _, _ => []
  | f + 1, seps, l =>
    if l.length = 0 then []
    else if l.length ≤ m then [l]
    else
      match seps with
      | [] => hard_cut m l
      | sep :: rest =>
        if sep.isEmpty then hard_cut m l
        else
          merge_splits m olap sep []
            ((split_on_sep sep l).bind
              (fun p => if p.length ≤ m then [p] else split_rec m olap f rest p))

/-- The configured `text_splitter.split_text`. -/
def split_text (s : String) : List String :=
  (split_rec chunk_size chunk_overlap (separators.length + 1) separators s.data).map
    fun l => String.mk l

/-- The method `TextProcessor.chunk_text` (text_processor.py lines 74-82): returns
the splitter's output unchanged. -/
def chunk_text (s : String) : List String := split_text s

theorem hard_cut_aux_bound (m : Nat) : ∀ f l c, c ∈ hard_cut_aux m f l → c.length ≤ m := by
  intro f
  induction f with
  | zero => intro l c hc; simp [hard_cut_aux] at hc
  | succ g ih =>
    intro l c hc
    cases l with
    | nil => simp [hard_cut_aux] at hc
    | cons x xs =>
      simp only [hard_cut_aux, List.mem_cons] at hc
      rcases hc with hc | hc
      · rw [hc]
        simpa using List.length_take_le m (x :: xs)
      · exact ih _ c hc

theorem merge_splits_bound (m olap : Nat) (sep : List Char) :
    ∀ ps cur, cur.length ≤ m → (∀ p ∈ ps, p.length ≤ m) →
    ∀ c ∈ merge_splits m olap sep cur ps, c.length ≤ m := by
  intro ps
  induction ps with
  | nil =>
    intro cur hcur _ c hc
    by_cases h : cur.isEmpty <;> simp [merge_splits, h] at hc
    rw [hc]; exact hcur
  | cons p ps ih =>
    intro cur hcur hps c hc
    have hp : p.length ≤ m := hps p (by simp)
    have hps2 : ∀ q ∈ ps, q.length ≤ m := fun q hq => hps q (by simp [hq])
    by_cases h1 : cur.isEmpty
    · rw [merge_splits, if_pos h1] at hc
      exact ih p hp hps2 c hc
    · by_cases h2 : cur.length + sep.length + p.length ≤ m
      · rw [merge_splits, if_neg h1, if_pos h2] at hc
        exact ih _ (by simp only [List.length_append]; omega) hps2 c hc
      · rw [merge_splits, if_neg h1, if_neg h2] at hc
        simp only [List.mem_cons] at hc
        rcases hc with hc | hc
        · rw [hc]; exact hcur
        · refine ih _ ?_ hps2 c hc
          by_cases h3 : (take_right olap cur).length + sep.length + p.length ≤ m
          · rw [if_pos h3]; simp only [List.length_append]; omega
          · rw [if_neg h3]; exact hp

theorem split_rec_succ (m olap g : Nat) (seps : List (List Char)) (l : List Char) :
    split_rec m olap (g + 1) seps l =
      (if l.length = 0 then []
       else if l.length ≤ m then [l]
       else
         match seps with
         | [] => hard_cut m l
         | sep :: rest =>
           if sep.isEmpty then hard_cut m l
           else
             merge_splits m olap sep []
               ((split_on_sep sep l).bind
                 (fun p => if p.length ≤ m then [p] else split_rec m olap g rest p))) := rfl

theorem split_rec_bound (m olap : Nat) :
    ∀ f seps l c, c ∈ split_rec m olap f seps l → c.length ≤ m := by
  intro f
  induction f with
  | zero => intro seps l c hc; simp [split_rec] at hc
  | succ g ih =>
    intro seps l c hc
    rw [split_rec_succ] at hc
    by_cases h0 : l.length = 0
    · rw [if_pos h0] at hc; simp at hc
    · by_cases h1 : l.length ≤ m
      · rw [if_neg h0, if_pos h1] at hc
        simp at hc; rw [hc]; exact h1
      · rw [if_neg h0, if_neg h1] at hc
        cases seps with
        | nil => simp only [] at hc; exact hard_cut_aux_bound m _ _ c hc
        | cons sep rest =>
          simp only [] at hc
          by_cases h2 : sep.isEmpty
          · rw [if_pos h2] at hc
            exact hard_cut_aux_bound m _ _ c hc
          · rw [if_neg h2] at hc
            refine merge_splits_bound m olap sep _ [] (by simp) ?_ c hc
            intro p hp
            rcases List.mem_bind.mp hp with ⟨q, _, hq2⟩
            by_cases h3 : q.length ≤ m
            · rw [if_pos h3] at hq2; simp at hq2; rw [hq2]; exact h3
            · rw [if_neg h3] at hq2
              exact ih rest q p hq2

/-- Every chunk produced by the configured splitter has length at most
`chunk_size = 1000` characters. -/
theorem chunk_text_bound (s : String) : ∀ c ∈ chunk_text s, c.length ≤ 1000 := by
  intro c hc
  simp only [chunk_text, split_text, List.mem_map] at hc
  obtain ⟨l, hl, rfl⟩ := hc
  exact split_rec_bound chunk_size chunk_overlap _ separators s.data l hl

/-- One extracted document node, as consumed by
`process_nodes_and_store` (a Python dict with optional keys `content`,
`page_num`, `image_path`). -/
structure DocNode where
  content : Option String
  page_num : Option Int
  image_path : Option String
deriving DecidableEq

/-- The metadata dict attached to each stored vector
(text_processor.py lines 140-145). -/
structure Metadata where
  pdf_id : Option String
  chunk_index : Option Nat
  node_index : Option Nat
  text : Option String
deriving DecidableEq

/-- Embedding vectors are opaque payloads here: the pipeline never
inspects their numeric content, it only moves them between the
embedding service and the store (their float components are modelled
as an abstract list). -/
abbrev EmbVec := List Int

/-- One `(id, embedding, metadata)` tuple as upserted to the store. -/
structure VecRec where
  id : String
  values : EmbVec
  metadata : Metadata
deriving DecidableEq

/-- The stored page value, `page_num if page_num is not None else ""` (line 128). -/
def page_val (node : DocNode) : JScalar :=
  match node.page_num with
  | some n => .num n
  | none => .str ("")

/-- The stored image path, `image_path if image_path is not None else ""` (line 129). -/
def image_val (node : DocNode) : JScalar :=
  match node.image_path with
  | some s => .str s
  | none => .str ("")

/-- The structured `node_info` dict serialized into metadata
(lines 127-131). -/
def node_info_json (node : DocNode) (chunk : String) : Json :=
  .obj [("page_num", page_val node), ("image_path", image_val node), ("content", .str chunk)]

/-- The vector prepared for one chunk (lines 122-149): deterministic
id, the chunk's embedding, and metadata carrying the routing fields
plus the serialized `node_info`. -/
def chunk_vector (pdf : String) (ni ci : Nat) (node : DocNode) (chunk : String)
    (emb : EmbVec) : VecRec :=
  { id := vector_id pdf ni ci
    values := emb
    metadata :=
      { pdf_id := some pdf
        chunk_index := some ci
        node_index := some ni
        text := some (json_dumps (node_info_json node chunk)) } }

/-- Upsert one record: overwrite the record with the same id if
present, append otherwise. -/
def upsert_one : List VecRec → VecRec → List VecRec
  | [], r => [r]
  | x :: xs, r => if x.id = r.id then r :: xs else x :: upsert_one xs r

/-- Upsert a batch of records in order. -/
def upsert_batch (st : List VecRec) (rs : List VecRec) : List VecRec :=
  rs.foldl upsert_one st

/-- Remote-call failures, kept abstract: the code re-raises the
exception object it received, so an error value carries exactly what
the remote service produced. -/
inductive EmbedFailure where
  | err : Nat → EmbedFailure
deriving DecidableEq

inductive UpsertFailure where
  | err : Nat → UpsertFailure
deriving DecidableEq

inductive QueryFailure where
  | err : Nat → QueryFailure
deriving DecidableEq

/-- Errors surfaced by the pipeline: wrapped remote failures plus the
Python runtime errors the formatting code can raise. -/
inductive PipeErr where
  | embedFail : EmbedFailure → PipeErr
  | upsertFail : UpsertFailure → PipeErr
  | queryFail : QueryFailure → PipeErr
  | synthFail : Nat → PipeErr
  | attributeError : PipeErr
  | keyError : PipeErr
deriving DecidableEq

/-- Outcome of the k-th embedding call of a run (the remote embedding
service, indexed by call number). -/
abbrev EmbOracle := Nat → Except EmbedFailure EmbVec

/-- Outcome of the k-th upsert call of a run (the remote vector
store's write endpoint, indexed by call number). -/
abbrev UpsOracle := Nat → Except UpsertFailure Unit

/-- The mutable state of one `process_nodes_and_store` run: number of
embedding calls made, the successful upsert calls in order, the store
contents, and the `vectors` batch buffer. -/
structure RunState where
  embeds : Nat
  calls : List (List VecRec)
  store : List VecRec
  buffer : List VecRec
deriving DecidableEq

/-- The inner chunk loop (lines 122-155): embed each chunk, append its
vector to the buffer, and when the buffer reaches 50 records upsert it
and reset it. Any failure aborts immediately with the original
error. -/
def store_chunks (eo : EmbOracle) (uo : UpsOracle) (pdf : String) (ni : Nat) (node : DocNode) :
    List String → Nat → RunState → RunState × Option PipeErr
  | [], _, st => (st, none)
  | ch :: rest, ci, st =>
    match eo st.embeds with
    | .error e => ({ st with embeds := st.embeds + 1 }, some (.embedFail e))
    | .ok v =>
      let st1 : RunState :=
        { st with
          embeds := st.embeds + 1
          buffer := st.buffer ++ [chunk_vector pdf ni ci node ch v] }
      if 50 ≤ st1.buffer.length then
        match uo st1.calls.length with
        | .error u => (st1, some (.upsertFail u))
        | .ok _ =>
          store_chunks eo uo pdf ni node rest (ci + 1)
            { st1 with
              calls := st1.calls ++ [st1.buffer]
              store := upsert_batch st1.store st1.buffer
              buffer := [] }
      else store_chunks eo uo pdf ni node rest (ci + 1) st1

/-- The node loop (lines 105-159). Faithful to the source: the
"remaining vectors" upsert at lines 157-159 sits inside the node loop
and does NOT clear the buffer, so leftover records are carried into
the next node (and upserted again at its end). -/
def store_nodes (eo : EmbOracle) (uo : UpsOracle) (pdf : String) :
    List DocNode → Nat → RunState → RunState × Option PipeErr
  | [], _, st => (st, none)
  | node :: rest, ni, st =>
    let chunks := split_text (node.content.getD (""))
    match store_chunks eo uo pdf ni node chunks 0 st with
    | (st1, some e) => (st1, some e)
    | (st1, none) =>
      if st1.buffer.isEmpty then store_nodes eo uo pdf rest (ni + 1) st1
      else
        match uo st1.calls.length with
        | .error u => (st1, some (.upsertFail u))
        | .ok _ =>
          store_nodes eo uo pdf rest (ni + 1)
            { st1 with
              calls := st1.calls ++ [st1.buffer]
              store := upsert_batch st1.store st1.buffer }

/-- The method `TextProcessor.process_nodes_and_store(nodes, pdf_id)` run against
the given oracles, starting from a store containing `init`. Returns
the final run state and the surfaced error, if any (the source's
`except` clause logs and re-raises the original exception
unchanged). -/
def process_nodes_and_store (eo : EmbOracle) (uo : UpsOracle) (nodes : List DocNode)
    (pdf : String) (init : List VecRec) : RunState × Option PipeErr :=
  store_nodes eo uo pdf nodes 0 { embeds := 0, calls := [], store := init, buffer := [] }

/-- One raw match returned by the store's `query` call: a similarity
score (a float in the source; modelled as an ordered numeric value,
which is faithful because the code never computes with scores, it only
copies and orders them) and the stored metadata. -/
structure SearchMatch where
  score : Int
  metadata : Metadata
deriving DecidableEq

/-- One formatted result of `search_similar` (lines 189-206). The
reconstructed fields hold whatever JSON value was stored. -/
structure FormattedResult where
  score : Int
  pdf_id : Option String
  chunk_index : Option Nat
  page_num : JScalar
  image_path : JScalar
  content : JScalar
deriving DecidableEq

/-- Python `dict.get` over parsed object members: later duplicate keys
overwrite earlier ones (as in a Python dict built from JSON), and a
missing key yields the default. -/
def jget : List (String × JScalar) → String → JScalar → JScalar
  | [], _, d => d
  | (k, v) :: rest, key, d => if k = key then jget rest key v else jget rest key d

/-- The raw stored text, `match.metadata.get("text", "\x7b\x7d")` (line 187). -/
def raw_text (m : SearchMatch) : String := m.metadata.text.getD (String.mk [lcur, rcur])

/-- The fallback result built in the `except` clause (lines 197-206):
empty page/image fields and the raw stored text as content, with
score, pdf id and chunk index preserved. -/
def fallback_result (m : SearchMatch) : FormattedResult :=
  { score := m.score
    pdf_id := m.metadata.pdf_id
    chunk_index := m.metadata.chunk_index
    page_num := .str ("")
    image_path := .str ("")
    content := .str (m.metadata.text.getD ("")) }

/-- Formatting of one match (lines 184-206). `json.loads` failures are
caught (`JSONDecodeError`/`KeyError`) and produce the fallback result;
but when the text parses to a JSON value that is NOT an object,
`node_info.get(...)` raises `AttributeError` (e.g. on `None` or a
list), which the `except` clause does not catch. -/
def format_match (m : SearchMatch) : Except PipeErr FormattedResult :=
  match json_loads (raw_text m) with
  | .error _ => .ok (fallback_result m)
  | .ok (.obj ms) =>
    .ok
      { score := m.score
        pdf_id := m.metadata.pdf_id
        chunk_index := m.metadata.chunk_index
        page_num := jget ms ("page_num") (.str (""))
        image_path := jget ms ("image_path") (.str (""))
        content := jget ms ("content") (.str ("")) }
  | .ok _ => .error .attributeError

/-- The formatting loop (lines 183-206): formats matches in order; an
uncaught exception aborts the whole call, discarding the list built so
far. -/
def format_matches : List SearchMatch → Except PipeErr (List FormattedResult)
  | [] => .ok []
  | m :: ms =>
    match format_match m with
    | .error e => .error e
    | .ok r =>
      match format_matches ms with
      | .error e => .error e
      | .ok rs => .ok (r :: rs)

/-- The store's `query` endpoint: given the query embedding and
`top_k`, returns the raw matches (or fails). -/
abbrev QueryOracle := EmbVec → Nat → Except QueryFailure (List SearchMatch)

/-- The method `TextProcessor.search_similar(query, top_k)` (lines 168-212):
embed the query, query the store, format each match. Remote failures
and formatting exceptions are re-raised unchanged. -/
def search_similar (qe : Except EmbedFailure EmbVec) (qo : QueryOracle)
    (query : String) (top_k : Nat) : Except PipeErr (List FormattedResult) :=
  match qe with
  | .error e => .error (.embedFail e)
  | .ok v =>
    match qo v top_k with
    | .error e => .error (.queryFail e)
    | .ok ms => format_matches ms

/-- The `{"score": ..., "metadata": ...}` dicts built by
`search_and_answer` (lines 257-263). -/
structure AnswerChunk where
  score : Int
  metadata : Metadata
deriving DecidableEq

/-- The dict returned by `search_and_answer` (lines 268-273). -/
structure AnswerDict where
  query : String
  answer : String
  supporting_chunks : List AnswerChunk
  total_chunks : Nat
deriving DecidableEq

/-- Python attribute lookup `search_results.matches` (line 262):
`search_similar` returns a plain list, and a list object has no
`matches` attribute, so this lookup raises `AttributeError`
unconditionally. -/
def list_attr_matches (rs : List FormattedResult) :
    Except PipeErr (List SearchMatch) := .error .attributeError

/-- The numbered context pieces of lines 218-221: each chunk is
rendered as the word Chunk, its 1-based number, a colon, a line break
and the metadata text; a missing text key raises `KeyError`. -/
def chunk_context : Nat → List AnswerChunk → Except PipeErr (List String)
  | _, [] => .ok []
  | i, c :: cs =>
    match c.metadata.text with
    | none => .error .keyError
    | some t =>
      match chunk_context (i + 1) cs with
      | .error e => .error e
      | .ok rest => .ok ((("Chunk ") ++ String.mk (py_nat (i + 1)) ++ (":\n") ++ t) :: rest)

/-- Join with a fixed separator (Python `"\n\n".join`). -/
def join_with (sep : String) : List String → String
  | [] => ""
  | [x] => x
  | x :: y :: rest => x ++ sep ++ join_with sep (y :: rest)

/-- The completion endpoint: prompt in, answer text out (or failure). -/
abbrev LlmOracle := String → Except Nat String

/-- The method `TextProcessor.generate_answer_from_chunks` (lines 214-248):
format the chunks into one context block, wrap it in the grounded
prompt, request a completion. -/
def generate_answer_from_chunks (llm : LlmOracle) (query : String)
    (chunks : List AnswerChunk) : Except PipeErr String :=
  match chunk_context 0 chunks with
  | .error e => .error e
  | .ok pieces =>
    let context := join_with ("\n\n") pieces
    let prompt :=
      ("Please provide a comprehensive answer to the following question using only the provided context. \n")
      ++ ("            If the answer cannot be fully derived from the context, please say so.\n\n")
      ++ ("            Question: ") ++ query ++ ("\n\n")
      ++ ("            Context:\n            ") ++ context ++ ("\n\n")
      ++ ("            Please provide a detailed answer and cite specific parts of the context where appropriate.")
    match llm prompt with
    | .error n => .error (.synthFail n)
    | .ok ans => .ok ans

/-- The method `TextProcessor.search_and_answer(query, top_k)` (lines 250-277),
exactly as written: call `search_similar`, then read `.matches` off
its list result (which raises), then build chunks, generate the
answer, and return the answer dict. -/
def search_and_answer (qe : Except EmbedFailure EmbVec) (qo : QueryOracle) (llm : LlmOracle)
    (query : String) (top_k : Nat) : Except PipeErr AnswerDict :=
  match search_similar qe qo query top_k with
  | .error e => .error e
  | .ok formatted =>
    match list_attr_matches formatted with
    | .error e => .error e
    | .ok ms =>
      let chunks := ms.map fun m => AnswerChunk.mk m.score m.metadata
      match generate_answer_from_chunks llm query chunks with
      | .error e => .error e
      | .ok ans =>
        .ok { query := query, answer := ans, supporting_chunks := chunks,
              total_chunks := chunks.length }

/-- Is a parsed JSON document an object? (`search_similar` survives
only objects and parse failures.) -/
def is_object : Json → Bool
  | .obj _ => true
  | _ => false

/-- A match's stored text either fails to parse or parses to a JSON
object (the only two shapes `search_similar` survives). -/
def text_obj_or_malformed (m : SearchMatch) : Bool :=
  match json_loads (raw_text m) with
  | .error _ => true
  | .ok (.obj _) => true
  | .ok _ => false

/-- The value `search_similar` emits for one match when formatting
does not raise. -/
def format_value (m : SearchMatch) : FormattedResult :=
  match format_match m with
  | .ok r => r
  | .error _ => fallback_result m

theorem format_match_ok_of_safe (m : SearchMatch) (h : text_obj_or_malformed m = true) :
    format_match m = .ok (format_value m) := by
  unfold text_obj_or_malformed at h
  unfold format_match format_value
  cases hj : json_loads (raw_text m) with
  | error e => simp [format_match, hj]
  | ok j =>
    cases j with
    | obj ms => simp [format_match, hj]
    | scalar v => rw [hj] at h; simp at h
    | arr xs => rw [hj] at h; simp at h

theorem format_match_error_attr (m : SearchMatch) (e : PipeErr)
    (h : format_match m = .error e) : e = .attributeError := by
  unfold format_match at h
  cases hj : json_loads (raw_text m) with
  | error e2 => rw [hj] at h; simp at h
  | ok j =>
    cases j with
    | obj ms => rw [hj] at h; simp at h
    | scalar v => rw [hj] at h; simp only [Except.error.injEq] at h; exact h.symm
    | arr xs => rw [hj] at h; simp only [Except.error.injEq] at h; exact h.symm

theorem format_match_score (m : SearchMatch) (r : FormattedResult)
    (h : format_match m = .ok r) : r.score = m.score := by
  unfold format_match at h
  cases hj : json_loads (raw_text m) with
  | error e2 =>
    rw [hj] at h
    simp only [Except.ok.injEq] at h
    rw [← h, fallback_result]
  | ok j =>
    cases j with
    | obj ms =>
      rw [hj] at h
      simp only [Except.ok.injEq] at h
      rw [← h]
    | scalar v => rw [hj] at h; simp at h
    | arr xs => rw [hj] at h; simp at h

theorem format_matches_all_ok (ms : List SearchMatch)
    (h : ∀ m ∈ ms, text_obj_or_malformed m = true) :
    format_matches ms = .ok (ms.map format_value) := by
  induction ms with
  | nil => rfl
  | cons m rest ih =>
    rw [format_matches, format_match_ok_of_safe m (h m (by simp)),
      ih (fun q hq => h q (by simp [hq]))]
    rfl

theorem format_matches_scores (ms : List SearchMatch) (rs : List FormattedResult)
    (h : format_matches ms = .ok rs) :
    (rs.map fun r => r.score) = ms.map fun m => m.score := by
  induction ms generalizing rs with
  | nil =>
    rw [format_matches] at h
    simp only [Except.ok.injEq] at h
    rw [← h]
    rfl
  | cons m rest ih =>
    rw [format_matches] at h
    cases hm : format_match m with
    | error e => rw [hm] at h; simp at h
    | ok r =>
      rw [hm] at h
      cases hr : format_matches rest with
      | error e => rw [hr] at h; simp at h
      | ok rs2 =>
        rw [hr] at h
        simp only [Except.ok.injEq] at h
        rw [← h]
        simp only [List.map_cons, format_match_score m r hm, ih rs2 hr]

theorem format_matches_poison (ms : List SearchMatch)
    (h : ∃ m ∈ ms, ∃ j, json_loads (raw_text m) = .ok j ∧ is_object j = false) :
    format_matches ms = .error .attributeError := by
  induction ms with
  | nil => simp at h
  | cons m rest ih =>
    rcases h with ⟨m2, hm2, j, hj, hno⟩
    rcases List.mem_cons.mp hm2 with rfl | hm2
    · have hferr : format_match m2 = .error .attributeError := by
        unfold format_match raw_text
        unfold raw_text at hj
        rw [hj]
        cases j with
        | obj ms2 => simp [is_object] at hno
        | scalar v => rfl
        | arr xs => rfl
      rw [format_matches, hferr]
    · cases hm : format_match m with
      | error e =>
        rw [format_matches, hm, format_match_error_attr m e hm]
      | ok r =>
        rw [format_matches, hm, ih ⟨m2, hm2, j, hj, hno⟩]

/-- Demo metadata whose text field is absent (defaulting to
the brace pair, which parses to the empty object). -/
def md_plain : Metadata := { pdf_id := some ("doc1"), chunk_index := some 0,
                             node_index := some 0, text := none }

/-- A match whose stored text is not valid JSON. -/
def match_bad : SearchMatch :=
  ⟨1, { pdf_id := some ("doc1"), chunk_index := some 0, node_index := some 0,
        text := some ("oops") }⟩

/-- A match whose stored text is valid JSON but not an object. -/
def match_null : SearchMatch :=
  ⟨0, { pdf_id := some ("doc1"), chunk_index := some 1, node_index := some 0,
        text := some ("null") }⟩

/-- C1: the claim says `search_and_answer`, when no remote call fails,
returns the answer dict `(query, answer, supporting_chunks,
total_chunks)`. The code cannot: `search_similar` returns a plain
list and line 262 reads `.matches` off it, raising `AttributeError`
before the answer dict at lines 268-273 is ever built. First conjunct:
a fully successful environment (store returns no matches at all) still
yields `AttributeError`; second conjunct: no environment makes it
return at all. -/
theorem c1_search_and_answer_always_raises :
    search_and_answer (.ok []) (fun _ _ => .ok []) (fun _ => .ok ("ans")) ("q") 5
      = .error .attributeError ∧
    ∀ (qe : Except EmbedFailure EmbVec) (qo : QueryOracle) (llm : LlmOracle)
      (query : String) (top_k : Nat) (a : AnswerDict),
      search_and_answer qe qo llm query top_k ≠ .ok a := by
  constructor
  · decide
  · intro qe qo llm query top_k a hcon
    unfold search_and_answer at hcon
    cases hs : search_similar qe qo query top_k with
    | error e => rw [hs] at hcon; exact absurd hcon (by simp)
    | ok f => rw [hs] at hcon; simp [list_attr_matches] at hcon

/-- C3 (counterexample to the claim as stated): a search whose matches
are a malformed-text match followed by a valid-JSON-non-object match
raises `AttributeError`; the malformed match appears in no result list
because there is none. -/
theorem c3_counterexample :
    (∃ err, json_loads (raw_text match_bad) = .error err) ∧
    search_similar (.ok []) (fun _ _ => .ok [match_bad, match_null]) ("q") 5
      = .error .attributeError ∧
    ¬∃ rs, search_similar (.ok []) (fun _ _ => .ok [match_bad, match_null]) ("q") 5
        = .ok rs ∧ fallback_result match_bad ∈ rs := by
  refine ⟨⟨("Expecting value"), by decide⟩, by decide, ?_⟩
  rintro ⟨rs, hrs, _⟩
  have h : search_similar (.ok []) (fun _ _ => .ok [match_bad, match_null]) ("q") 5
      = .error .attributeError := by decide
  rw [h] at hrs
  exact absurd hrs (by simp)

/-- C3 (amended): provided every returned match's text either fails to
parse or parses to a JSON object — i.e. no match makes the whole call
raise — the call succeeds with one result per match in order, and
every match with malformed text appears as the fallback result: score,
pdf id and chunk index preserved, empty page_num and image_path, and
the raw stored text as content. -/
theorem c3_malformed_fallback (qe : Except EmbedFailure EmbVec) (qo : QueryOracle)
    (query : String) (top_k : Nat) (v : EmbVec) (ms : List SearchMatch)
    (he : qe = .ok v) (hq : qo v top_k = .ok ms)
    (hall : ∀ m ∈ ms, text_obj_or_malformed m = true) :
    search_similar qe qo query top_k = .ok (ms.map format_value) ∧
    ∀ m ∈ ms, (∃ err, json_loads (raw_text m) = .error err) →
      format_value m = fallback_result m ∧
      (fallback_result m).score = m.score ∧
      (fallback_result m).pdf_id = m.metadata.pdf_id ∧
      (fallback_result m).chunk_index = m.metadata.chunk_index ∧
      (fallback_result m).page_num = .str ("") ∧
      (fallback_result m).image_path = .str ("") ∧
      (fallback_result m).content = .str (m.metadata.text.getD ("")) := by
  subst he
  constructor
  · rw [search_similar, hq]
    exact format_matches_all_ok ms hall
  · intro m _ ⟨err, herr⟩
    refine ⟨?_, rfl, rfl, rfl, rfl, rfl, rfl⟩
    unfold format_value format_match
    rw [herr]

/-- C3 witness run. -/
theorem c3_malformed_fallback_witness :
    (search_similar (.ok []) (fun _ _ => .ok [match_bad]) ("q") 5
        = .ok ([match_bad].map format_value) ∧
      ∀ m ∈ [match_bad], (∃ err, json_loads (raw_text m) = .error err) →
        format_value m = fallback_result m ∧
        (fallback_result m).score = m.score ∧
        (fallback_result m).pdf_id = m.metadata.pdf_id ∧
        (fallback_result m).chunk_index = m.metadata.chunk_index ∧
        (fallback_result m).page_num = .str ("") ∧
        (fallback_result m).image_path = .str ("") ∧
        (fallback_result m).content = .str (m.metadata.text.getD (""))) :=
  c3_malformed_fallback (.ok []) (fun _ _ => .ok [match_bad]) ("q") 5 [] [match_bad]
    rfl rfl (by intro m hm; rcases List.mem_singleton.mp hm with rfl; decide)


/-- C9: the graceful-fallback branch covers only decode/key failures:
whenever some returned match's text parses as valid JSON that is not
an object (`null`, a list, ...), `search_similar` raises
`AttributeError`, failing the entire call and dropping every other
match. -/
theorem c9_nonobject_text_fails_search (qe : Except EmbedFailure EmbVec) (qo : QueryOracle)
    (query : String) (top_k : Nat) (v : EmbVec) (ms : List SearchMatch)
    (m : SearchMatch) (j : Json)
    (he : qe = .ok v) (hq : qo v top_k = .ok ms) (hm : m ∈ ms)
    (hj : json_loads (raw_text m) = .ok j)
    (hno : is_object j = false) :
    search_similar qe qo query top_k = .error .attributeError := by
  subst he
  rw [search_similar, hq]
  exact format_matches_poison ms ⟨m, hm, j, hj, hno⟩

/-- C9 witness run: a single `"null"`-text match fails the search. -/
theorem c9_nonobject_text_fails_search_witness :
    search_similar (.ok []) (fun _ _ => .ok [match_bad, match_null]) ("q") 5
      = .error .attributeError :=
  c9_nonobject_text_fails_search (.ok []) (fun _ _ => .ok [match_bad, match_null])
    ("q") 5 [] [match_bad, match_null] match_null (.scalar .null)
    rfl rfl (by decide) (by decide) rfl

/-- The scores of a formatted result list, in order. -/
def scores_of (rs : List FormattedResult) : List Int := rs.map fun r => r.score

/-- A score sequence is non-increasing. -/
def nonincreasing : List Int → Bool
  | [] => true
  | [_] => true
  | a :: b :: rest => decide (b ≤ a) && nonincreasing (b :: rest)

/-- C7: whenever `search_similar(query, top_k = k)` returns, if the
store returned at most `k` matches with non-increasing scores, the
result has at most `k` entries, its scores are non-increasing, and it
preserves the store's order (score for score, position by
position). -/
theorem c7_topk_bound_and_order (qe : Except EmbedFailure EmbVec) (qo : QueryOracle)
    (query : String) (k : Nat) (v : EmbVec) (ms : List SearchMatch)
    (rs : List FormattedResult)
    (he : qe = .ok v) (hq : qo v k = .ok ms)
    (hlen : ms.length ≤ k)
    (hsorted : nonincreasing (ms.map fun m => m.score) = true)
    (hrun : search_similar qe qo query k = .ok rs) :
    rs.length ≤ k ∧ nonincreasing (scores_of rs) = true ∧
    scores_of rs = ms.map fun m => m.score := by
  subst he
  rw [search_similar, hq] at hrun
  have hsc : scores_of rs = ms.map fun m => m.score :=
    format_matches_scores ms rs hrun
  refine ⟨?_, ?_, hsc⟩
  · have := congrArg List.length hsc
    simp only [scores_of, List.length_map] at this
    omega
  · rw [hsc]; exact hsorted

/-- C7 witness run: two matches with descending scores. -/
theorem c7_topk_bound_and_order_witness :
    ([format_value ⟨1, md_plain⟩, format_value ⟨0, md_plain⟩] :
        List FormattedResult).length ≤ 2 ∧
    nonincreasing
      (scores_of [format_value ⟨1, md_plain⟩, format_value ⟨0, md_plain⟩]) = true ∧
    scores_of [format_value ⟨1, md_plain⟩, format_value ⟨0, md_plain⟩]
      = ([⟨1, md_plain⟩, ⟨0, md_plain⟩] : List SearchMatch).map (fun m => m.score) :=
  c7_topk_bound_and_order (.ok []) (fun _ _ => .ok [⟨1, md_plain⟩, ⟨0, md_plain⟩])
    ("q") 2 [] [⟨1, md_plain⟩, ⟨0, md_plain⟩]
    [format_value ⟨1, md_plain⟩, format_value ⟨0, md_plain⟩]
    rfl rfl (by decide) (by decide) (by decide)

theorem upsert_one_idem (st : List VecRec) (r : VecRec) :
    upsert_one (upsert_one st r) r = upsert_one st r := by
  induction st with
  | nil => simp [upsert_one]
  | cons x xs ih =>
    by_cases h : x.id = r.id
    · simp [upsert_one, h]
    · simp [upsert_one, h, ih]

/-- C5: the vector id is a deterministic function of the triple (it is
a pure function), distinct triples give distinct ids even when the
document id contains `"_node"`/`"_chunk"` substrings, and upserting
the same record twice leaves the store exactly as upserting it once
(idempotence: one record, not two). -/
theorem c5_id_injective_and_upsert_idempotent (pdf1 pdf2 : String)
    (m1 k1 m2 k2 : Nat) (st : List VecRec) (r : VecRec) :
    (vector_id pdf1 m1 k1 = vector_id pdf2 m2 k2 → pdf1 = pdf2 ∧ m1 = m2 ∧ k1 = k2) ∧
    upsert_batch (upsert_batch st [r]) [r] = upsert_batch st [r] := by
  constructor
  · exact fun h => vector_id_inj pdf1 pdf2 m1 k1 m2 k2 h
  · show upsert_one (upsert_one st r) r = upsert_one st r
    exact upsert_one_idem st r

/-- C5 witness: instantiated at a document id that itself contains
`"_node"` and `"_chunk"`. -/
theorem c5_id_injective_and_upsert_idempotent_witness :
    (("a_node1_chunk2" : String) = "a_node1_chunk2" ∧ (3 : Nat) = 3 ∧ (4 : Nat) = 4) ∧
    upsert_batch (upsert_batch [] [chunk_vector ("d") 0 0 (DocNode.mk (some ("a")) none none) ("a") []])
        [chunk_vector ("d") 0 0 (DocNode.mk (some ("a")) none none) ("a") []]
      = upsert_batch [] [chunk_vector ("d") 0 0 (DocNode.mk (some ("a")) none none) ("a") []] :=
  ⟨(c5_id_injective_and_upsert_idempotent ("a_node1_chunk2") ("a_node1_chunk2")
      3 4 3 4 [] (chunk_vector ("d") 0 0 (DocNode.mk (some ("a")) none none) ("a") [])).1 rfl,
   (c5_id_injective_and_upsert_idempotent ("a_node1_chunk2") ("a_node1_chunk2")
      3 4 3 4 [] (chunk_vector ("d") 0 0 (DocNode.mk (some ("a")) none none) ("a") [])).2⟩

/-- C8: every chunk produced by the configured chunker is at most 1000
characters long (the hard character cut bounds even separator-free
text), and chunking is deterministic: identical inputs give identical
chunk sequences. -/
theorem c8_chunk_bound_and_deterministic (s t : String) :
    (∀ c ∈ chunk_text s, c.length ≤ 1000) ∧ (s = t → chunk_text s = chunk_text t) := by
  exact ⟨chunk_text_bound s, fun h => by rw [h]⟩

/-- C8 witness run. -/
theorem c8_chunk_bound_and_deterministic_witness :
    ("ab" : String).length ≤ 1000 ∧ chunk_text ("ab") = chunk_text ("ab") :=
  ⟨(c8_chunk_bound_and_deterministic ("ab") ("ab")).1 ("ab") (by decide),
   (c8_chunk_bound_and_deterministic ("ab") ("ab")).2 rfl⟩

theorem store_nodes_empty (eo : EmbOracle) (uo : UpsOracle) (pdf : String) :
    ∀ (nodes : List DocNode) (ni : Nat) (st : RunState),
    (∀ n ∈ nodes, split_text (n.content.getD ("")) = []) → st.buffer = [] →
    store_nodes eo uo pdf nodes ni st = (st, none) := by
  intro nodes
  induction nodes with
  | nil => intro ni st _ _; rfl
  | cons n rest ih =>
    intro ni st hall hbuf
    have hc : split_text (n.content.getD ("")) = [] := hall n (by simp)
    rw [store_nodes, hc]
    show (if st.buffer.isEmpty then store_nodes eo uo pdf rest (ni + 1) st
          else _) = (st, none)
    rw [if_pos (by simp [hbuf])]
    exact ih (ni + 1) st (fun q hq => hall q (by simp [hq])) hbuf

/-- C10: on an empty node sequence, and on any sequence of nodes whose
`content` is absent or yields zero chunks, `process_nodes_and_store`
succeeds while making no embedding call and no upsert call, and leaves
the store exactly as it was. -/
theorem c10_empty_content_no_effect (eo : EmbOracle) (uo : UpsOracle)
    (nodes : List DocNode) (pdf : String) (init : List VecRec)
    (h : ∀ n ∈ nodes, split_text (n.content.getD ("")) = []) :
    process_nodes_and_store eo uo nodes pdf init
      = ({ embeds := 0, calls := [], store := init, buffer := [] }, none) :=
  store_nodes_empty eo uo pdf nodes 0 _ h rfl

/-- C10 witness runs: the empty sequence and a node with no content
key. -/
theorem c10_empty_content_no_effect_witness :
    process_nodes_and_store (fun _ => .error (.err 0)) (fun _ => .error (.err 0))
        [DocNode.mk none none none] ("d") [chunk_vector ("d") 9 9 (DocNode.mk none none none) ("x") []]
      = ({ embeds := 0, calls := [],
           store := [chunk_vector ("d") 9 9 (DocNode.mk none none none) ("x") []],
           buffer := [] }, none) :=
  c10_empty_content_no_effect (fun _ => .error (.err 0)) (fun _ => .error (.err 0))
    [DocNode.mk none none none] ("d") [chunk_vector ("d") 9 9 (DocNode.mk none none none) ("x") []]
    (by intro n hn; rcases List.mem_singleton.mp hn with rfl; decide)

/-- Oracles that always succeed (the embedding payload is irrelevant). -/
def eo_ok : EmbOracle := fun _ => .ok []

def uo_ok : UpsOracle := fun _ => .ok ()

/-- Two nodes of one chunk each: the batch-boundary failing input. -/
def demo_nodes_c2 : List DocNode :=
  [DocNode.mk (some ("a")) none none, DocNode.mk (some ("b")) none none]

/-- C2 (code bug, evaluated at the failing input): two nodes yielding
R = 2 records under batch size B = 50 should, per the spec's batch
boundary (and the code's own batching design), produce
ceil(2/50) = 1 upsert call carrying both records. The code's
"remaining vectors" flush sits inside the node loop and never clears
the buffer, so the run performs 2 calls — the first carrying 1 record
and the second carrying 2, re-upserting the first node's record. -/
theorem c2_batch_boundary_failing_input :
    ((process_nodes_and_store eo_ok uo_ok demo_nodes_c2 ("d") []).2 = none) ∧
    ((demo_nodes_c2.map fun n => (split_text (n.content.getD (""))).length).sum = 2) ∧
    ((process_nodes_and_store eo_ok uo_ok demo_nodes_c2 ("d") []).1.calls.map List.length
      = [1, 2]) ∧
    ((process_nodes_and_store eo_ok uo_ok demo_nodes_c2 ("d") []).1.calls.length
      ≠ (2 + 50 - 1) / 50) := by
  refine ⟨by decide, by decide, by decide, by decide⟩

/-- The store contents produced by replaying a list of successful
upsert calls over an initial store. -/
def calls_store (init : List VecRec) (calls : List (List VecRec)) : List VecRec :=
  calls.foldl upsert_batch init

theorem calls_store_snoc (init : List VecRec) (calls : List (List VecRec)) (b : List VecRec) :
    calls_store init (calls ++ [b]) = upsert_batch (calls_store init calls) b := by
  simp [calls_store, List.foldl_append]

/-- What holds of a finished (sub)run: the store is exactly the replay
of the successful upsert calls (no rollback), and the surfaced error,
if any, is the unchanged oracle error of the failing call, which is
the last call the run made. -/
def run_post (eo : EmbOracle) (uo : UpsOracle) (init : List VecRec) :
    RunState × Option PipeErr → Prop
  | (st, oe) =>
    st.store = calls_store init st.calls ∧
    match oe with
    | none => ∀ j, j < st.embeds → ∃ v, eo j = .ok v
    | some (.embedFail f) =>
        eo (st.embeds - 1) = .error f ∧ ∀ j, j + 1 < st.embeds → ∃ v, eo j = .ok v
    | some (.upsertFail u) =>
        uo st.calls.length = .error u ∧ ∀ j, j < st.embeds → ∃ v, eo j = .ok v
    | some _ => False

theorem store_chunks_post (eo : EmbOracle) (uo : UpsOracle) (pdf : String) (ni : Nat)
    (node : DocNode) (init : List VecRec) :
    ∀ (chunks : List String) (ci : Nat) (st : RunState),
    st.store = calls_store init st.calls → (∀ j, j < st.embeds → ∃ v, eo j = .ok v) →
    run_post eo uo init (store_chunks eo uo pdf ni node chunks ci st) := by
  intro chunks
  induction chunks with
  | nil => intro ci st hs he; exact ⟨hs, he⟩
  | cons ch rest ih =>
    intro ci st hs he
    rw [store_chunks]
    cases heo : eo st.embeds with
    | error e =>
      refine ⟨hs, ?_, ?_⟩
      · simpa using heo
      · intro j hj
        exact he j (by simpa using hj)
    | ok v =>
      simp only []
      have he1 : ∀ j, j < st.embeds + 1 → ∃ v2, eo j = .ok v2 := by
        intro j hj
        rcases Nat.lt_succ_iff_lt_or_eq.mp hj with hj | rfl
        · exact he j hj
        · exact ⟨v, heo⟩
      by_cases hb : 50 ≤ (st.buffer ++ [chunk_vector pdf ni ci node ch v]).length
      · rw [if_pos hb]
        cases huo : uo st.calls.length with
        | error u => exact ⟨hs, huo, he1⟩
        | ok _ =>
          refine ih (ci + 1) _ ?_ he1
          show upsert_batch st.store _ = calls_store init (st.calls ++ [_])
          rw [calls_store_snoc, hs]
      · rw [if_neg hb]
        exact ih (ci + 1) _ hs he1

theorem store_nodes_post (eo : EmbOracle) (uo : UpsOracle) (pdf : String)
    (init : List VecRec) :
    ∀ (nodes : List DocNode) (ni : Nat) (st : RunState),
    st.store = calls_store init st.calls → (∀ j, j < st.embeds → ∃ v, eo j = .ok v) →
    run_post eo uo init (store_nodes eo uo pdf nodes ni st) := by
  intro nodes
  induction nodes with
  | nil => intro ni st hs he; exact ⟨hs, he⟩
  | cons node rest ih =>
    intro ni st hs he
    rw [store_nodes]
    have hpost := store_chunks_post eo uo pdf ni node init
      (split_text (node.content.getD (""))) 0 st hs he
    cases hsc : store_chunks eo uo pdf ni node (split_text (node.content.getD (""))) 0 st with
    | mk st1 oe =>
      rw [hsc] at hpost
      cases oe with
      | some e => exact hpost
      | none =>
        simp only []
        obtain ⟨hs1, he1⟩ := hpost
        by_cases hb : st1.buffer.isEmpty
        · rw [if_pos hb]
          exact ih (ni + 1) st1 hs1 he1
        · rw [if_neg hb]
          cases huo : uo st1.calls.length with
          | error u => exact ⟨hs1, huo, he1⟩
          | ok _ =>
            refine ih (ni + 1) _ ?_ he1
            show upsert_batch st1.store _ = calls_store init (st1.calls ++ [_])
            rw [calls_store_snoc, hs1]

/-- C4 (amended): when a run of `process_nodes_and_store` fails, it
aborts at the failing call — every embedding call before it succeeded
and no later embedding or upsert call is made — the surfaced error is
the original remote failure unchanged (the code adds no node/chunk
context), and every batch upserted before the failure remains in the
store with no rollback: the final store is exactly the replay of the
successful upsert calls over the initial store. -/
theorem c4_failure_aborts_keeps_prior_batches (eo : EmbOracle) (uo : UpsOracle)
    (nodes : List DocNode) (pdf : String) (init : List VecRec)
    (st : RunState) (e : PipeErr)
    (hrun : process_nodes_and_store eo uo nodes pdf init = (st, some e)) :
    st.store = calls_store init st.calls ∧
    ((∃ f, e = .embedFail f ∧ eo (st.embeds - 1) = .error f ∧
        ∀ j, j + 1 < st.embeds → ∃ v, eo j = .ok v) ∨
     (∃ u, e = .upsertFail u ∧ uo st.calls.length = .error u ∧
        ∀ j, j < st.embeds → ∃ v, eo j = .ok v)) := by
  have hpost := store_nodes_post eo uo pdf init nodes 0
    { embeds := 0, calls := [], store := init, buffer := [] }
    (by simp [calls_store]) (by intro j hj; simp at hj)
  rw [process_nodes_and_store] at hrun
  rw [hrun] at hpost
  obtain ⟨hs, hrest⟩ := hpost
  refine ⟨hs, ?_⟩
  cases e with
  | embedFail f => exact Or.inl ⟨f, rfl, hrest⟩
  | upsertFail u => exact Or.inr ⟨u, rfl, hrest⟩
  | queryFail q => exact absurd hrest (by simp [run_post])
  | synthFail n => exact absurd hrest (by simp [run_post])
  | attributeError => exact absurd hrest (by simp [run_post])
  | keyError => exact absurd hrest (by simp [run_post])

/-- An embedding oracle whose every call fails with the same remote
error. -/
def eo_fail : EmbOracle := fun _ => .error (.err 7)

def nodes_one : List DocNode := [DocNode.mk (some ("a")) none none]

def nodes_shifted : List DocNode :=
  [DocNode.mk none none none, DocNode.mk (some ("a")) none none]

/-- Index of the node at which the first embedding call (and so, under
`eo_fail`, the failure) occurs: the first node with at least one
chunk. -/
def failing_node_index (nodes : List DocNode) : Nat :=
  nodes.findIdx fun n => !(split_text (n.content.getD (""))).isEmpty

/-- C4 (counterexample to the claim as stated): the surfaced error
does not identify the node/chunk at which the failure occurred. Two
runs that fail at different node indices (node 0 vs node 1) surface
the very same error value, so no reading of the error can recover the
failing position. -/
theorem c4_counterexample :
    (process_nodes_and_store eo_fail uo_ok nodes_one ("d") []).2
      = some (.embedFail (.err 7)) ∧
    (process_nodes_and_store eo_fail uo_ok nodes_shifted ("d") []).2
      = some (.embedFail (.err 7)) ∧
    failing_node_index nodes_one = 0 ∧ failing_node_index nodes_shifted = 1 ∧
    ¬∃ dec : PipeErr → Nat,
      ∀ (nodes : List DocNode) (st : RunState) (e : PipeErr),
        process_nodes_and_store eo_fail uo_ok nodes ("d") [] = (st, some e) →
        dec e = failing_node_index nodes := by
  refine ⟨by decide, by decide, by decide, by decide, ?_⟩
  rintro ⟨dec, hdec⟩
  have h1 := hdec nodes_one ⟨1, [], [], []⟩ (.embedFail (.err 7)) (by decide)
  have h2 := hdec nodes_shifted ⟨1, [], [], []⟩ (.embedFail (.err 7)) (by decide)
  have e1 : failing_node_index nodes_one = 0 := by decide
  have e2 : failing_node_index nodes_shifted = 1 := by decide
  rw [e1] at h1
  rw [e2, h1] at h2
  exact absurd h2 (by decide)

/-- C4 witness run: a single-node run whose first embedding call
fails. -/
theorem c4_failure_aborts_keeps_prior_batches_witness :
    (RunState.mk 1 [] [] []).store = calls_store [] (RunState.mk 1 [] [] []).calls ∧
    ((∃ f, PipeErr.embedFail (.err 7) = .embedFail f ∧
        eo_fail ((RunState.mk 1 [] [] []).embeds - 1) = .error f ∧
        ∀ j, j + 1 < (RunState.mk 1 [] [] []).embeds → ∃ v, eo_fail j = .ok v) ∨
     (∃ u, PipeErr.embedFail (.err 7) = .upsertFail u ∧
        uo_ok (RunState.mk 1 [] [] []).calls.length = .error u ∧
        ∀ j, j < (RunState.mk 1 [] [] []).embeds → ∃ v, eo_fail j = .ok v)) :=
  c4_failure_aborts_keeps_prior_batches eo_fail uo_ok nodes_one ("d") []
    (RunState.mk 1 [] [] []) (.embedFail (.err 7)) (by decide)

/-- Reconstructing a result from an indexed record's metadata alone
recovers the chunk content, the stored page number (an integer when
present, `""` when the node had none), the image path (`""` for
`None`), the document id and the chunk index. -/
theorem format_chunk_vector (pdf : String) (ni ci : Nat) (node : DocNode)
    (chunk : String) (emb : EmbVec) (sc : Int) :
    format_match ⟨sc, (chunk_vector pdf ni ci node chunk emb).metadata⟩
      = .ok ⟨sc, some pdf, some ci, page_val node, image_val node, .str chunk⟩ := by
  have hraw : raw_text ⟨sc, (chunk_vector pdf ni ci node chunk emb).metadata⟩
      = json_dumps (node_info_json node chunk) := rfl
  unfold format_match
  rw [hraw, node_info_json, json_loads_dumps_obj]
  simp only []
  have hpn : jget [(("page_num"), page_val node), (("image_path"), image_val node),
      (("content"), JScalar.str chunk)] ("page_num") (.str ("")) = page_val node := by
    rw [jget, if_pos rfl, jget, if_neg (by decide), jget, if_neg (by decide), jget]
  have him : jget [(("page_num"), page_val node), (("image_path"), image_val node),
      (("content"), JScalar.str chunk)] ("image_path") (.str ("")) = image_val node := by
    rw [jget, if_neg (by decide), jget, if_pos rfl, jget, if_neg (by decide), jget]
  have hco : jget [(("page_num"), page_val node), (("image_path"), image_val node),
      (("content"), JScalar.str chunk)] ("content") (.str ("")) = .str chunk := by
    rw [jget, if_neg (by decide), jget, if_neg (by decide), jget, if_pos rfl, jget]
  rw [hpn, him, hco]
  rfl

/-- A record of the given run: built by `chunk_vector` from some node
of the input and some chunk of that node's content. -/
def from_run (pdf : String) (nodes : List DocNode) (r : VecRec) : Prop :=
  ∃ ni ci node chunk emb, node ∈ nodes ∧ chunk ∈ split_text (node.content.getD ("")) ∧
    r = chunk_vector pdf ni ci node chunk emb

/-- Every record in the buffer and in every upsert call is a record of
the run. -/
def trace_ok (pdf : String) (nodes : List DocNode) (st : RunState) : Prop :=
  (∀ r ∈ st.buffer, from_run pdf nodes r) ∧
  (∀ b ∈ st.calls, ∀ r ∈ b, from_run pdf nodes r)

theorem store_chunks_trace (eo : EmbOracle) (uo : UpsOracle) (pdf : String) (ni : Nat)
    (node : DocNode) (nodes : List DocNode) (hnode : node ∈ nodes) :
    ∀ (chunks : List String) (ci : Nat) (st : RunState),
    (∀ ch ∈ chunks, ch ∈ split_text (node.content.getD (""))) →
    trace_ok pdf nodes st →
    trace_ok pdf nodes (store_chunks eo uo pdf ni node chunks ci st).1 := by
  intro chunks
  induction chunks with
  | nil => intro ci st _ ht; exact ht
  | cons ch rest ih =>
    intro ci st hch ht
    rw [store_chunks]
    cases heo : eo st.embeds with
    | error e => exact ht
    | ok v =>
      simp only []
      have hrec : from_run pdf nodes (chunk_vector pdf ni ci node ch v) :=
        ⟨ni, ci, node, ch, v, hnode, hch ch (by simp), rfl⟩
      have ht1 : trace_ok pdf nodes
          { st with
            embeds := st.embeds + 1
            buffer := st.buffer ++ [chunk_vector pdf ni ci node ch v] } := by
        refine ⟨?_, ht.2⟩
        intro r hr
        rcases List.mem_append.mp hr with hr | hr
        · exact ht.1 r hr
        · rcases List.mem_singleton.mp hr with rfl
          exact hrec
      by_cases hb : 50 ≤ (st.buffer ++ [chunk_vector pdf ni ci node ch v]).length
      · rw [if_pos hb]
        cases huo : uo st.calls.length with
        | error u => exact ht1
        | ok _ =>
          refine ih (ci + 1) _ (fun q hq => hch q (by simp [hq])) ?_
          refine ⟨by intro r hr; simp at hr, ?_⟩
          intro b hb2 r hr
          rcases List.mem_append.mp hb2 with hb2 | hb2
          · exact ht1.2 b hb2 r hr
          · rcases List.mem_singleton.mp hb2 with rfl
            exact ht1.1 r hr
      · rw [if_neg hb]
        exact ih (ci + 1) _ (fun q hq => hch q (by simp [hq])) ht1

theorem store_nodes_trace (eo : EmbOracle) (uo : UpsOracle) (pdf : String)
    (nodes : List DocNode) :
    ∀ (todo : List DocNode) (ni : Nat) (st : RunState),
    (∀ n ∈ todo, n ∈ nodes) → trace_ok pdf nodes st →
    trace_ok pdf nodes (store_nodes eo uo pdf todo ni st).1 := by
  intro todo
  induction todo with
  | nil => intro ni st _ ht; exact ht
  | cons node rest ih =>
    intro ni st hsub ht
    rw [store_nodes]
    have ht1 := store_chunks_trace eo uo pdf ni node nodes (hsub node (by simp))
      (split_text (node.content.getD (""))) 0 st (fun ch hch => hch) ht
    cases hsc : store_chunks eo uo pdf ni node (split_text (node.content.getD (""))) 0 st with
    | mk st1 oe =>
      rw [hsc] at ht1
      cases oe with
      | some e => exact ht1
      | none =>
        simp only []
        by_cases hb : st1.buffer.isEmpty
        · rw [if_pos hb]
          exact ih (ni + 1) st1 (fun q hq => hsub q (by simp [hq])) ht1
        · rw [if_neg hb]
          cases huo : uo st1.calls.length with
          | error u => exact ht1
          | ok _ =>
            refine ih (ni + 1) _ (fun q hq => hsub q (by simp [hq])) ?_
            refine ⟨ht1.1, ?_⟩
            intro b hb2 r hr
            rcases List.mem_append.mp hb2 with hb2 | hb2
            · exact ht1.2 b hb2 r hr
            · rcases List.mem_singleton.mp hb2 with rfl
              exact ht1.1 r hr

/-- C6: write-read round trip. (i) For every record the indexer
builds, reconstructing a result from that record's metadata alone — as
`search_similar` does — recovers exactly the chunk content, the node's
page number, the node's image path (with `None` normalized to `""`),
the document id and the chunk index. (ii) Every record in every upsert
call of any run of `process_nodes_and_store` is such a record: it is
`chunk_vector` applied to some node of the input and some chunk of
that node's content. -/
theorem c6_metadata_roundtrip_and_provenance :
    (∀ (pdf : String) (ni ci : Nat) (node : DocNode) (chunk : String)
       (emb : EmbVec) (sc : Int),
      format_match ⟨sc, (chunk_vector pdf ni ci node chunk emb).metadata⟩
        = .ok ⟨sc, some pdf, some ci, page_val node, image_val node, .str chunk⟩) ∧
    (∀ (eo : EmbOracle) (uo : UpsOracle) (nodes : List DocNode) (pdf : String)
       (init : List VecRec) (st : RunState) (oe : Option PipeErr)
       (b : List VecRec) (r : VecRec),
      process_nodes_and_store eo uo nodes pdf init = (st, oe) →
      b ∈ st.calls → r ∈ b →
      ∃ ni ci node chunk emb, node ∈ nodes ∧
        chunk ∈ split_text (node.content.getD ("")) ∧
        r = chunk_vector pdf ni ci node chunk emb) := by
  constructor
  · exact format_chunk_vector
  · intro eo uo nodes pdf init st oe b r hrun hb hr
    have ht := store_nodes_trace eo uo pdf nodes nodes 0
      { embeds := 0, calls := [], store := init, buffer := [] }
      (fun n hn => hn) (by constructor <;> intro x hx <;> simp at hx)
    rw [process_nodes_and_store] at hrun
    rw [hrun] at ht
    exact ht.2 b hb r hr

/-- C6 witness: a node with a page number round-trips, and the first
record upserted by the two-node demo run is a record of that run. -/
theorem c6_metadata_roundtrip_and_provenance_witness :
    (format_match ⟨1, (chunk_vector ("d") 0 0 (DocNode.mk (some ("a")) (some 3) none)
        ("a") []).metadata⟩
      = .ok ⟨1, some ("d"), some 0, page_val (DocNode.mk (some ("a")) (some 3) none),
             image_val (DocNode.mk (some ("a")) (some 3) none), .str ("a")⟩) ∧
    (∃ ni ci node chunk emb, node ∈ demo_nodes_c2 ∧
      chunk ∈ split_text (node.content.getD ("")) ∧
      chunk_vector ("d") 0 0 (DocNode.mk (some ("a")) none none) ("a") []
        = chunk_vector ("d") ni ci node chunk emb) :=
  ⟨c6_metadata_roundtrip_and_provenance.1 ("d") 0 0
      (DocNode.mk (some ("a")) (some 3) none) ("a") [] 1,
   c6_metadata_roundtrip_and_provenance.2 eo_ok uo_ok demo_nodes_c2 ("d") []
     (process_nodes_and_store eo_ok uo_ok demo_nodes_c2 ("d") []).1
     (process_nodes_and_store eo_ok uo_ok demo_nodes_c2 ("d") []).2
     [chunk_vector ("d") 0 0 (DocNode.mk (some ("a")) none none) ("a") []]
     (chunk_vector ("d") 0 0 (DocNode.mk (some ("a")) none none) ("a") [])
     rfl (by decide) (by decide)⟩
